import Mathlib

/-!
A shallow embedding of the construction side of the go-unixfsnode UnixFS v1
builder (the balanced-tree file builder, the HAMT sharded directory builder,
the plain directory builder and the recursive tree builder), together with
proofs about the embedded definitions.

Modelling conventions:
* bytes are lists of naturals;
* the chunker is modelled by the list of chunks it yields;
* the block sink is modelled by the list of blocks written, in write order;
* the SHA-256 multihash inside a CID is abstracted as an injective function of
  the encoded block content, so a link is represented by the codec paired with
  the encoded content and link equality coincides with CID equality under the
  standard collision-freeness assumption;
* components of the repository that are not part of the provided sources
  (the DAG-PB encoder, the UnixFS metadata encoder, the hashBits helper, the
  bitfield helper, the sized store wrapper) are modelled from the spec, as
  marked on each definition.
-/

/-- Decidable equality for Except values, used to settle concrete runs of
the embedded builders. -/
instance {ε α : Type} [DecidableEq ε] [DecidableEq α] : DecidableEq (Except ε α) := fun a b =>
  match a, b with
  | .error e, .error e' =>
    if h : e = e' then .isTrue (by rw [h]) else .isFalse (by intro hh; cases hh; exact h rfl)
  | .ok x, .ok y =>
    if h : x = y then .isTrue (by rw [h]) else .isFalse (by intro hh; cases hh; exact h rfl)
  | .error _, .ok _ => .isFalse (by intro hh; cases hh)
  | .ok _, .error _ => .isFalse (by intro hh; cases hh)

namespace UnixFS

/-- Byte strings are lists of naturals (each intended below 256). -/
abbrev Bytes := List Nat

/-- Worker for varint with an explicit structural fuel; the fuel n + 1 always
suffices because the argument at least halves at every step. -/
def varintGo : Nat → Nat → Bytes
  | 0, _ => []
  | f + 1, n => if n < 128 then [n] else (n % 128 + 128) :: varintGo f (n / 128)

/-- Modelled from the spec: protobuf base-128 varint encoding ("Integers use
protobuf varint"), least-significant seven-bit group first, with a
continuation bit on every group but the last. -/
def varint (n : Nat) : Bytes := varintGo (n + 1) n

/-- A content identifier in the embedding: the codec plus the encoded block
content. The SHA-256 multihash is abstracted as an injective function of the
content, so CID equality is codec-plus-content equality. -/
structure Link where
  codec : Nat
  bytes : Bytes
deriving Repr, DecidableEq

/-- The raw-leaf codec value (0x55). -/
def rawCodec : Nat := 0x55

/-- The dag-pb codec value (0x70). -/
def dagPbCodec : Nat := 0x70

/-- A DAG-PB link record: Hash, Name (as raw bytes), Tsize. -/
structure PBLink where
  hash : Link
  name : Bytes
  tsize : Nat
deriving Repr, DecidableEq

/-- The UnixFS metadata record of spec section 4.2. -/
structure UnixMeta where
  dataType : Nat
  udata : Option Bytes
  fileSize : Option Nat
  blockSizes : List Nat
  hashType : Option Nat
  fanout : Option Nat
deriving Repr, DecidableEq

/-- UnixFS DataType enum value for Directory. -/
def Data_Directory : Nat := 1

/-- UnixFS DataType enum value for File. -/
def Data_File : Nat := 2

/-- UnixFS DataType enum value for HAMTShard. -/
def Data_HAMTShard : Nat := 5

/-- Strict lexicographic comparison of byte strings, used to order link
names in the DAG-PB encoder. -/
def bytesLt : Bytes → Bytes → Bool
  | [], [] => false
  | [], _ :: _ => true
  | _ :: _, [] => false
  | a :: as, b :: bs => if a < b then true else if b < a then false else bytesLt as bs

/-- Stable insertion for the link sort: walk past strictly smaller names and
insert before the first name that is not smaller, so links with equal names
keep their relative order. -/
def insertLink (l : PBLink) : List PBLink → List PBLink
  | [] => [l]
  | x :: xs => if bytesLt x.name l.name then x :: insertLink l xs else l :: x :: xs

/-- Modelled from the spec: the DAG-PB encoder emits links in ascending order
of Name; the sort is stable, which keeps the empty-name links of file
interior nodes in insertion order as section 4.3 requires. -/
def sortLinks (ls : List PBLink) : List PBLink :=
  ls.foldr insertLink []

/-- Modelled from the spec (section 4.2): protobuf encoding of the UnixFS
metadata record. Field numbers follow the canonical unixfs schema (DataType=1,
Data=2, filesize=3, blocksizes=4, hashType=5, fanout=6); absent optional
fields are omitted, which is semantically distinct from zero. -/
def encodeUnixMeta (m : UnixMeta) : Bytes :=
  (0x08 :: varint m.dataType) ++
  (match m.udata with | none => [] | some d => 0x12 :: (varint d.length ++ d)) ++
  (match m.fileSize with | none => [] | some n => 0x18 :: varint n) ++
  ((m.blockSizes.map (fun n => 0x20 :: varint n)).flatten) ++
  (match m.hashType with | none => [] | some n => 0x28 :: varint n) ++
  (match m.fanout with | none => [] | some n => 0x30 :: varint n)

/-- Modelled from the spec: the binary form of a CID is the version (always
1), the codec, then the multihash, the latter abstracted as the encoded
content itself. -/
def Link.cidBytes (l : Link) : Bytes := 1 :: l.codec :: l.bytes

/-- Modelled from the spec (section 4.1): within a link message, Hash is
emitted first, then Name (only if non-empty), then Tsize (only if
non-zero). -/
def encodeLink (l : PBLink) : Bytes :=
  (0x0A :: (varint l.hash.cidBytes.length ++ l.hash.cidBytes)) ++
  (if l.name.isEmpty then [] else 0x12 :: (varint l.name.length ++ l.name)) ++
  (if l.tsize = 0 then [] else 0x18 :: varint l.tsize)

/-- A block: either a raw leaf (the chunk bytes verbatim) or a DAG-PB node
with UnixFS metadata and links. -/
inductive Node where
  | raw : Bytes → Node
  | pb : UnixMeta → List PBLink → Node
deriving Repr, DecidableEq

/-- Modelled from the spec (section 4.1): DAG-PB wire encoding. Every link is
emitted as field 2 (length-delimited, link list sorted by name), then the
Data bytes as field 1; a raw leaf is the chunk bytes verbatim. -/
def encodeNode : Node → Bytes
  | .raw b => b
  | .pb m ls =>
    ((sortLinks ls).map (fun l => 0x12 :: (varint (encodeLink l).length ++ encodeLink l))).flatten ++
    (0x0A :: (varint (encodeUnixMeta m).length ++ encodeUnixMeta m))

/-- The codec under which a block is addressed. -/
def Node.codec : Node → Nat
  | .raw _ => rawCodec
  | .pb _ _ => dagPbCodec

/-- Modelled from the spec: CID construction over an encoded block (version 1,
appropriate codec, SHA-256 multihash abstracted as the content). -/
def mkLink (n : Node) : Link := ⟨n.codec, encodeNode n⟩

/-- Byte length of the encoded block; this is what the sized store wrapper
(modelled from the spec: stored size of a block is len of the encoded block)
reports for each write. -/
def storedLen (n : Node) : Nat := (encodeNode n).length

/-! ## The balanced file builder (translated from data/builder/file.go) -/

/-- Translation of BlockSizeLimit: maximum size an imported block can have. -/
def BlockSizeLimit : Nat := 1048576

/-- Translation of roughLinkBlockSize: rough estimate of a block size, 8KB. -/
def roughLinkBlockSize : Nat := 8192

/-- Translation of roughLinkSize: sha256 multihash + size + no name +
protobuf framing. -/
def roughLinkSize : Nat := 34 + 8 + 5

/-- Translation of DefaultLinksPerBlock: how many links there will be per
block, computed as roughLinkBlockSize / roughLinkSize. -/
def DefaultLinksPerBlock : Nat := roughLinkBlockSize / roughLinkSize

/-- Translation of fileShardMeta: the link of a completed subtree (kept in
structured form here, its CID being recoverable through mkLink), the number
of file bytes it covers, and the number of bytes used to store it. -/
structure FileShardMeta where
  link : Option Node
  byteSize : Nat
  storedSize : Nat
deriving Repr, DecidableEq

/-- The zero fileShardMeta value returned at end of stream. -/
def nilShard : FileShardMeta := ⟨none, 0, 0⟩

/-- Translation of fileShards.totalByteSize. -/
def totalByteSize (fs : List FileShardMeta) : Nat := (fs.map (·.byteSize)).sum

/-- Translation of fileShards.totalStoredSize. -/
def totalStoredSize (fs : List FileShardMeta) : Nat := (fs.map (·.storedSize)).sum

/-- Translation of fileShards.byteSizes. -/
def byteSizes (fs : List FileShardMeta) : List Nat := fs.map (·.byteSize)

/-- Modelled from the spec: BuildUnixFS invoked with the FileSize and
BlockSizes options (and the default File data type) yields a File metadata
record carrying exactly those fields. -/
def mkFileMeta (fileSize : Nat) (blockSizes : List Nat) : UnixMeta :=
  ⟨Data_File, none, some fileSize, blockSizes, none, none⟩

/-- Translation of BuildUnixFSDirectoryEntry: the link to a child as it
appears within a directory or file node. -/
def buildDirectoryEntry (name : Bytes) (size : Nat) (hash : Link) : PBLink :=
  ⟨hash, name, size⟩

/-- Translation of packFileChildren: a dag-pb node whose Data is the UnixFS
File record over the children and whose links carry empty names and the
children's stored sizes. -/
def packFileChildren (children : List FileShardMeta) : Node :=
  .pb (mkFileMeta (totalByteSize children) (byteSizes children))
    (children.map (fun c => buildDirectoryEntry [] c.storedSize (mkLink (c.link.getD (.raw [])))))

/-- The level-filling loop of fileTreeRecursive: while fewer than
DefaultLinksPerBlock children are gathered, pull one more subtree from the
level below, stopping at end of stream. The iteration budget k is the number
of free child slots; each turn of the source loop appends exactly one child,
so the budget form is equivalent to the source condition. -/
def fillLevel
    (go : List Bytes → List Node → Except String (FileShardMeta × List Bytes × List Node)) :
    Nat → List FileShardMeta → List Bytes → List Node →
    Except String (List FileShardMeta × List Bytes × List Node)
  | 0, children, src, st => .ok (children, src, st)
  | k + 1, children, src, st =>
    match go src st with
    | .error e => .error e
    | .ok (next, src', st') =>
      if next.link.isNone then .ok (children, src', st')
      else fillLevel go k (children ++ [next]) src' st'

/-- Translation of fileTreeRecursive: packs a file into chunks recursively,
returning the shard metadata for this level of recursion, the remaining chunk
stream, and the sink contents. -/
def fileTreeRecursive : Nat → List FileShardMeta → List Bytes → List Node →
    Except String (FileShardMeta × List Bytes × List Node)
  | 0, _, _, _ => .error "invalid depth"
  | 1, children, src, st =>
    if children.length ≠ 0 then .error "leaf nodes cannot have children"
    else
      match src with
      | [] => .ok (nilShard, [], st)
      | c :: rest => .ok (⟨some (.raw c), c.length, storedLen (.raw c)⟩, rest, st ++ [.raw c])
  | d + 2, children, src, st =>
    match fillLevel (fun s t => fileTreeRecursive (d + 1) [] s t)
        (DefaultLinksPerBlock - children.length) children src st with
    | .error e => .error e
    | .ok (children', src', st') =>
      if children'.length = 0 then .ok (nilShard, src', st')
      else if children'.length = 1 then .ok (children'.headD nilShard, src', st')
      else
        let node := packFileChildren children'
        .ok (⟨some node, totalByteSize children', totalStoredSize children' + storedLen node⟩,
          src', st' ++ [node])

/-- Translation of the loop inside BuildUnixFSFile: grow the depth until the
root of the level no longer changes. The fuel bound passed by buildFileFrom
always suffices, so fuel exhaustion never occurs on a run that the source
program performs. -/
def buildLoop : Nat → Option FileShardMeta → Nat → List Bytes → List Node →
    Except String (Link × Nat × List Node)
  | 0, _, _, _, _ => .error "out of fuel"
  | fuel + 1, prev, depth, src, st =>
    match fileTreeRecursive depth prev.toList src st with
    | .error e => .error e
    | .ok (next, src', st') =>
      match prev with
      | some p =>
        if p.link = next.link then
          match next.link with
          | none =>
            let node : Node := .raw []
            .ok (mkLink node, 0, st' ++ [node])
          | some n => .ok (mkLink n, next.storedSize, st')
        else
          buildLoop fuel (some next) (depth + 1) src' st'
      | none => buildLoop fuel (some next) (depth + 1) src' st'

/-- Translation of BuildUnixFSFile over a pre-chunked stream, starting from
the given sink contents. -/
def buildFileFrom (chunks : List Bytes) (st : List Node) :
    Except String (Link × Nat × List Node) :=
  buildLoop (chunks.length + 2) none 1 chunks st

/-- Translation of BuildUnixFSFile: returns the root link, the stored size,
and the final sink contents (every block written, in write order). -/
def BuildUnixFSFile (chunks : List Bytes) : Except String (Link × Nat × List Node) :=
  buildFileFrom chunks []

/-! ## Invariants of the file builder -/

/-- The logical file byte count a block covers according to its own
metadata: the length of a raw leaf, or the FileSize field of an interior
file node. -/
def payloadLen : Node → Nat
  | .raw b => b.length
  | .pb m _ => m.fileSize.getD 0

/-- Coherence of a file shard metadatum: an absent link means the zero
metadatum, and a present link covers exactly the byte count recorded. -/
def MetaOK (m : FileShardMeta) : Prop :=
  (m.link = none → m.byteSize = 0 ∧ m.storedSize = 0) ∧
  (∀ n, m.link = some n → payloadLen n = m.byteSize)

/-- Shape of every block the file builder writes: a raw leaf, or an interior
file node packed from between 2 and DefaultLinksPerBlock children whose
BlockSizes entries record, in order, each child's logical byte count. -/
def WrittenOK (b : Node) : Prop :=
  (∃ bs, b = .raw bs) ∨
  (∃ cs : List FileShardMeta, 2 ≤ cs.length ∧ cs.length ≤ DefaultLinksPerBlock ∧
    b = packFileChildren cs ∧
    ∀ c ∈ cs, payloadLen (c.link.getD (.raw [])) = c.byteSize)

/-- Full account of one fileTreeRecursive call: how the sink, the stream, and
the returned metadatum relate. -/
def TreeOut (children : List FileShardMeta) (src : List Bytes) (st : List Node)
    (m : FileShardMeta) (src' : List Bytes) (st' : List Node) : Prop :=
  ∃ new consumed,
    st' = st ++ new ∧
    src = consumed ++ src' ∧
    m.storedSize = totalStoredSize children + (new.map storedLen).sum ∧
    m.byteSize = totalByteSize children + (consumed.map List.length).sum ∧
    (∀ b ∈ new, WrittenOK b) ∧
    MetaOK m ∧
    (m.link = none → new = [] ∧ consumed = [] ∧ (children = [] ∨ m ∈ children)) ∧
    (src ≠ [] → m.link.isSome ∧ ∀ c ∈ children, m.link ≠ c.link) ∧
    (∀ n, m.link = some n → (new = [] ∧ m ∈ children) ∨ new.getLast? = some n) ∧
    (∀ b, m.link = some (.raw b) →
      (children = [] ∧ consumed = [b] ∧ new = [.raw b]) ∨
      (m ∈ children ∧ consumed = [] ∧ new = []))

/-- Account of one child gathered by the level-filling loop, paired with the
blocks it wrote and the chunks it consumed. -/
def PartOK (p : FileShardMeta × List Node × List Bytes) : Prop :=
  p.1.storedSize = (p.2.1.map storedLen).sum ∧
  p.1.byteSize = (p.2.2.map List.length).sum ∧
  (∀ b ∈ p.2.1, WrittenOK b) ∧
  MetaOK p.1 ∧
  p.1.link.isSome ∧
  p.2.1.getLast? = p.1.link ∧
  (∀ b, p.1.link = some (.raw b) → p.2.2 = [b] ∧ p.2.1 = [.raw b])

/-- Full account of one fillLevel run in terms of the children it appended. -/
def FillOut (parts : List (FileShardMeta × List Node × List Bytes))
    (children : List FileShardMeta) (src : List Bytes) (st : List Node)
    (children' : List FileShardMeta) (src' : List Bytes) (st' : List Node) : Prop :=
  children' = children ++ parts.map (·.1) ∧
  st' = st ++ (parts.map (·.2.1)).flatten ∧
  src = (parts.map (·.2.2)).flatten ++ src' ∧
  ∀ p ∈ parts, PartOK p

theorem mem_insertLink {a l : PBLink} : ∀ {xs : List PBLink},
    a ∈ insertLink l xs ↔ a = l ∨ a ∈ xs := by
  intro xs
  induction xs with
  | nil => simp [insertLink]
  | cons x xs ih =>
    simp only [insertLink]
    by_cases h : bytesLt x.name l.name
    · rw [if_pos h]
      simp only [List.mem_cons, ih]
      tauto
    · rw [if_neg h]
      simp

theorem mem_sortLinks {a : PBLink} : ∀ {ls : List PBLink},
    a ∈ sortLinks ls ↔ a ∈ ls := by
  intro ls
  induction ls with
  | nil => simp [sortLinks]
  | cons x xs ih =>
    simp only [sortLinks, List.foldr] at *
    rw [mem_insertLink]
    simp [ih]

theorem encodeLink_len (l : PBLink) :
    l.hash.bytes.length + 3 ≤ (encodeLink l).length := by
  simp only [encodeLink, Link.cidBytes]
  simp [List.length_append]
  omega

theorem hash_len_lt (meta : UnixMeta) (ls : List PBLink) (l : PBLink) (h : l ∈ ls) :
    l.hash.bytes.length < (encodeNode (.pb meta ls)).length := by
  have hmem : l ∈ sortLinks ls := mem_sortLinks.mpr h
  have hlen := encodeLink_len l
  simp only [encodeNode, List.length_append, List.length_flatten]
  have hsum : (encodeLink l).length + 1 ≤
      (((sortLinks ls).map
        (fun l => 0x12 :: (varint (encodeLink l).length ++ encodeLink l))).map List.length).sum := by
    have : ((0x12 : Nat) :: (varint (encodeLink l).length ++ encodeLink l)).length ∈
        ((sortLinks ls).map
          (fun l => 0x12 :: (varint (encodeLink l).length ++ encodeLink l))).map List.length := by
      simp only [List.map_map]
      exact List.mem_map_of_mem _ hmem
    have hle := List.single_le_sum (fun x _ => Nat.zero_le x) _ this
    simp only [List.length_cons, List.length_append] at hle
    omega
  omega

theorem pack_ne {cs : List FileShardMeta} {c : FileShardMeta} (hc : c ∈ cs)
    {q : Node} (hq : c.link = some q) : q ≠ packFileChildren cs := by
  intro he
  have hlink : (buildDirectoryEntry [] c.storedSize (mkLink (c.link.getD (.raw [])))) ∈
      cs.map (fun c => buildDirectoryEntry [] c.storedSize (mkLink (c.link.getD (.raw [])))) :=
    List.mem_map_of_mem _ hc
  have hlt := hash_len_lt (mkFileMeta (totalByteSize cs) (byteSizes cs)) _ _ hlink
  rw [← packFileChildren] at hlt
  simp only [buildDirectoryEntry, hq, Option.getD_some, mkLink] at hlt
  rw [← he] at hlt
  simp at hlt

theorem metaOK_payload {c : FileShardMeta} (h : MetaOK c) :
    payloadLen (c.link.getD (.raw [])) = c.byteSize := by
  obtain ⟨h0, h1⟩ := h
  cases hl : c.link with
  | none =>
    have := (h0 hl).1
    simp [hl, payloadLen, this]
  | some n => simpa [hl] using h1 n hl

theorem parts_sums : ∀ {parts : List (FileShardMeta × List Node × List Bytes)},
    (∀ p ∈ parts, PartOK p) →
    totalStoredSize (parts.map (·.1)) = (((parts.map (·.2.1)).flatten).map storedLen).sum ∧
    totalByteSize (parts.map (·.1)) = (((parts.map (·.2.2)).flatten).map List.length).sum := by
  intro parts
  induction parts with
  | nil =>
    intro _
    simp [totalStoredSize, totalByteSize]
  | cons p ps ih =>
    intro h
    have hp := h p (List.mem_cons_self ..)
    have ihs := ih (fun q hq => h q (List.mem_cons_of_mem _ hq))
    obtain ⟨h1, h2, _⟩ := hp
    simp only [totalStoredSize, totalByteSize, List.map_cons, List.flatten_cons,
      List.map_append, List.sum_append, List.sum_cons] at *
    omega

theorem fillLevel_spec
    (go : List Bytes → List Node → Except String (FileShardMeta × List Bytes × List Node))
    (Hgo : ∀ src st m src' st', go src st = .ok (m, src', st') → TreeOut [] src st m src' st') :
    ∀ k children src st children' src' st',
      fillLevel go k children src st = .ok (children', src', st') →
      ∃ parts, FillOut parts children src st children' src' st' ∧ parts.length ≤ k ∧
        (src ≠ [] → 1 ≤ k → parts ≠ []) := by
  intro k
  induction k with
  | zero =>
    intro children src st c' s' t' h
    simp only [fillLevel] at h
    cases h
    exact ⟨[], ⟨by simp, by simp, by simp, by simp⟩, by simp, fun _ h1 => absurd h1 (by omega)⟩
  | succ k ih =>
    intro children src st c' s' t' h
    simp only [fillLevel] at h
    cases hgo : go src st with
    | error e => rw [hgo] at h; cases h
    | ok out =>
      obtain ⟨next, src1, st1⟩ := out
      rw [hgo] at h
      dsimp only at h
      have htree := Hgo _ _ _ _ _ hgo
      obtain ⟨new0, cons0, hst1, hsrc1, hstored, hbyte, hwok, hmok, hnone, hsome, hlast, hraw⟩ :=
        htree
      by_cases hn : next.link.isNone
      · rw [if_pos hn] at h
        cases h
        have hline : next.link = none := Option.isNone_iff_eq_none.mp hn
        obtain ⟨hnew0, hcons0, _⟩ := hnone hline
        refine ⟨[], ⟨by simp, ?_, ?_, by simp⟩, by simp, ?_⟩
        · simp [hst1, hnew0]
        · simp [hsrc1, hcons0]
        · intro hs _
          exact absurd ((hsome hs).1) (by simp [hline])
      · rw [if_neg hn] at h
        obtain ⟨parts', ⟨hc', hstp', hsrcp', hpok'⟩, hlenp', _⟩ := ih _ _ _ _ _ _ h
        have hsome' : next.link.isSome := by
          cases hl : next.link with
          | none => exact absurd (by simp [hl]) hn
          | some n => simp
        refine ⟨(next, new0, cons0) :: parts', ⟨?_, ?_, ?_, ?_⟩, by simp; omega, fun _ _ => by simp⟩
        · simp only [List.map_cons] at *
          rw [hc', List.append_assoc]
          simp
        · simp only [List.map_cons, List.flatten_cons] at *
          rw [hstp', hst1, List.append_assoc]
        · simp only [List.map_cons, List.flatten_cons] at *
          rw [hsrc1, hsrcp', List.append_assoc]
        · intro p hp
          rcases List.mem_cons.mp hp with hp | hp
          · subst hp
            obtain ⟨n, hn'⟩ := Option.isSome_iff_exists.mp hsome'
            refine ⟨by simpa [totalStoredSize] using hstored,
              by simpa [totalByteSize] using hbyte, hwok, hmok, hsome', ?_, ?_⟩
            · rcases hlast n hn' with ⟨_, hmem⟩ | hl
              · simp at hmem
              · simp only [hn']
                exact hl
            · intro b hb
              rcases hraw b hb with ⟨_, hc, hnw⟩ | ⟨hmem, _, _⟩
              · exact ⟨hc, hnw⟩
              · simp at hmem
          · exact hpok' p hp

theorem DLPB_eq : DefaultLinksPerBlock = 174 := by decide

theorem totalStoredSize_append (a b : List FileShardMeta) :
    totalStoredSize (a ++ b) = totalStoredSize a + totalStoredSize b := by
  simp [totalStoredSize]

theorem totalByteSize_append (a b : List FileShardMeta) :
    totalByteSize (a ++ b) = totalByteSize a + totalByteSize b := by
  simp [totalByteSize]

theorem tree_spec : ∀ d children src st m src' st',
    fileTreeRecursive d children src st = .ok (m, src', st') →
    children.length ≤ 1 → (∀ c ∈ children, MetaOK c) → (d = 1 → children = []) →
    TreeOut children src st m src' st' := by
  intro d
  induction d using Nat.strong_induction_on with
  | _ d ih =>
  cases d with
  | zero =>
    intro children src st m src' st' h
    simp [fileTreeRecursive] at h
  | succ d1 =>
    cases d1 with
    | zero =>
      intro children src st m src' st' h _ _ hd
      have hc : children = [] := hd rfl
      subst hc
      simp only [fileTreeRecursive, List.length_nil] at h
      rw [if_neg (by simp)] at h
      cases src with
      | nil =>
        cases h
        refine ⟨[], [], by simp, by simp, by simp [nilShard, totalStoredSize],
          by simp [nilShard, totalByteSize], by simp, ?_, by simp, by simp [nilShard],
          by simp [nilShard], by simp [nilShard]⟩
        constructor
        · intro _
          simp [nilShard]
        · intro n hn
          simp [nilShard] at hn
      | cons c rest =>
        cases h
        refine ⟨[.raw c], [c], by simp, by simp, by simp [totalStoredSize],
          by simp [totalByteSize, storedLen, encodeNode], ?_, ?_, by simp, ?_, ?_, ?_⟩
        · intro b hb
          simp at hb
          exact Or.inl ⟨c, hb⟩
        · constructor
          · intro hn
            simp at hn
          · intro n hn
            simp at hn
            simp [← hn, payloadLen, storedLen, encodeNode]
        · intro _
          exact ⟨by simp, by simp⟩
        · intro n hn
          right
          simp at hn
          simp [← hn]
        · intro b hb
          left
          simp at hb
          exact ⟨rfl, by simp [hb], by simp [hb]⟩
    | succ e =>
      intro children src st m src' st' h hlen hmok _
      simp only [fileTreeRecursive] at h
      cases hfill : fillLevel (fun s t => fileTreeRecursive (e + 1) [] s t)
          (DefaultLinksPerBlock - children.length) children src st with
      | error er => rw [hfill] at h; cases h
      | ok out =>
        obtain ⟨children', src1, st1⟩ := out
        rw [hfill] at h
        dsimp only at h
        have Hgo : ∀ src st m src' st',
            fileTreeRecursive (e + 1) [] src st = .ok (m, src', st') →
            TreeOut [] src st m src' st' := by
          intro a b c dd ee hh
          exact ih (e + 1) (by omega) [] a b c dd ee hh (by simp) (by simp) (fun _ => rfl)
        obtain ⟨parts, ⟨hc', hst1, hsrc1, hpok⟩, hplen, hpne⟩ :=
          fillLevel_spec _ Hgo _ _ _ _ _ _ _ hfill
        have hD : DefaultLinksPerBlock = 174 := DLPB_eq
        by_cases h0 : children'.length = 0
        · rw [if_pos h0] at h
          cases h
          have hce : children ++ parts.map (·.1) = [] := by
            rw [← hc']
            exact List.length_eq_zero.mp h0
          have hchn : children = [] := (List.append_eq_nil.mp hce).1
          have hpn : parts = [] := by
            have := (List.append_eq_nil.mp hce).2
            exact List.map_eq_nil_iff.mp this
          subst hchn hpn
          simp only [List.map_nil, List.flatten_nil, List.append_nil] at hst1 hsrc1
          refine ⟨[], [], by simp [hst1], by simp [hsrc1], by simp [nilShard, totalStoredSize],
            by simp [nilShard, totalByteSize], by simp, ?_, by simp, ?_,
            by simp [nilShard], by simp [nilShard]⟩
          · constructor
            · intro _
              simp [nilShard]
            · intro n hn
              simp [nilShard] at hn
          · intro hs
            exact absurd rfl (hpne hs (by omega))
        · by_cases h1 : children'.length = 1
          · rw [if_neg h0, if_pos h1] at h
            cases h
            obtain ⟨c0, hc0⟩ := List.length_eq_one.mp h1
            subst hc0
            cases children with
            | nil =>
              cases parts with
              | nil => simp at hc'
              | cons pt rest =>
                simp only [List.nil_append, List.map_cons] at hc'
                obtain ⟨hcc, hrm⟩ := List.cons_eq_cons.mp hc'
                have hrest : rest = [] := List.map_eq_nil_iff.mp hrm.symm
                subst hcc hrest
                obtain ⟨hp1, hp2, hp3, hp4, hp5, hp6, hp7⟩ := hpok pt (List.mem_cons_self ..)
                simp only [List.map_cons, List.map_nil, List.flatten_cons, List.flatten_nil,
                  List.append_nil] at hst1 hsrc1
                simp only [List.headD_cons]
                refine ⟨pt.2.1, pt.2.2, hst1, hsrc1,
                  by simpa [totalStoredSize] using hp1, by simpa [totalByteSize] using hp2,
                  hp3, hp4, ?_, ?_, ?_, ?_⟩
                · intro hn
                  rw [hn] at hp5
                  simp at hp5
                · intro _
                  exact ⟨hp5, by simp⟩
                · intro n hn
                  right
                  rw [hp6, hn]
                · intro b hb
                  left
                  exact ⟨rfl, (hp7 b hb).1, (hp7 b hb).2⟩
            | cons p tail =>
              cases tail with
              | cons q tail2 => simp at hlen
              | nil =>
                have hpn : parts = [] := by
                  have : (1 : Nat) + parts.length = 1 := by
                    have := congrArg List.length hc'
                    simpa using this
                  have : parts.length = 0 := by omega
                  exact List.length_eq_zero.mp this
                subst hpn
                have hpc : c0 = p := by simpa using hc'
                subst hpc
                simp only [List.map_nil, List.flatten_nil, List.append_nil] at hst1 hsrc1
                refine ⟨[], [], by simp [hst1], by simp [hsrc1],
                  by simp [totalStoredSize], by simp [totalByteSize], by simp,
                  hmok c0 (by simp), ?_, ?_, ?_, ?_⟩
                · intro _
                  exact ⟨rfl, rfl, Or.inr (by simp)⟩
                · intro hs
                  exact absurd rfl (hpne hs (by omega))
                · intro n _
                  exact Or.inl ⟨rfl, by simp⟩
                · intro b _
                  exact Or.inr ⟨by simp, rfl, rfl⟩
          · rw [if_neg h0, if_neg h1] at h
            cases h
            have htwo : 2 ≤ children'.length := by omega
            obtain ⟨hsum1, hsum2⟩ := parts_sums hpok
            have hlen' : children'.length = children.length + parts.length := by
              rw [hc']
              simp
            have hle : children'.length ≤ DefaultLinksPerBlock := by omega
            have hmokAll : ∀ c ∈ children', MetaOK c := by
              intro c hc
              rw [hc'] at hc
              rcases List.mem_append.mp hc with hc | hc
              · exact hmok c hc
              · obtain ⟨pt, hpt, hpc⟩ := List.mem_map.mp hc
                rw [← hpc]
                exact (hpok pt hpt).2.2.2.1
            refine ⟨(parts.map (·.2.1)).flatten ++ [packFileChildren children'],
              (parts.map (·.2.2)).flatten, ?_, ?_, ?_, ?_, ?_, ?_, by simp, ?_, ?_, ?_⟩
            · rw [hst1, List.append_assoc]
            · exact hsrc1
            · simp only [List.map_append, List.sum_append]
              rw [hc', totalStoredSize_append, hsum1]
              simp only [List.map_cons, List.map_nil, List.sum_cons, List.sum_nil, storedLen]
              omega
            · simp only []
              rw [hc', totalByteSize_append, hsum2]
            · intro b hb
              rcases List.mem_append.mp hb with hb | hb
              · obtain ⟨sub, hsub, hbsub⟩ := List.mem_flatten.mp hb
                obtain ⟨pt, hpt, hps⟩ := List.mem_map.mp hsub
                exact (hpok pt hpt).2.2.1 b (hps ▸ hbsub)
              · right
                refine ⟨children', htwo, hle, by simpa using hb, ?_⟩
                intro c hc
                exact metaOK_payload (hmokAll c hc)
            · constructor
              · intro hn
                simp at hn
              · intro n hn
                simp only at hn
                injection hn with hn
                rw [← hn]
                simp [packFileChildren, mkFileMeta, payloadLen]
            · intro _
              refine ⟨by simp, ?_⟩
              intro c hc
              simp only
              cases hcl : c.link with
              | none => simp
              | some q =>
                intro habs
                injection habs with habs
                have hmem : c ∈ children' := by
                  rw [hc']
                  exact List.mem_append_left _ hc
                exact pack_ne hmem hcl habs.symm
            · intro n hn
              right
              simp only at hn
              injection hn with hn
              rw [← hn, List.getLast?_concat]
            · intro b hb
              simp only at hb
              injection hb with hb
              simp [packFileChildren] at hb

theorem getLast?_append_some {α : Type} {l1 l2 : List α} {a : α}
    (h : l2.getLast? = some a) : (l1 ++ l2).getLast? = some a := by
  rw [List.getLast?_append, h]
  rfl

/-- The stored size recorded in the metadatum carried between loop turns. -/
def prevStoredSize : Option FileShardMeta → Nat
  | none => 0
  | some p => p.storedSize

/-- Full account of a completed buildLoop run: the blocks written, the root
block, the size returned and the bytes covered, all relative to the chunks
already consumed before this call (done) and the stored size already
accumulated (prevStored). -/
def LoopOut (done : List Bytes) (prevStored : Nat) (src : List Bytes) (st : List Node)
    (lnk : Link) (sz : Nat) (st' : List Node) : Prop :=
  ∃ new n,
    st' = st ++ new ∧
    (∀ b ∈ new, WrittenOK b) ∧
    sz = prevStored + (new.map storedLen).sum ∧
    lnk = mkLink n ∧
    st'.getLast? = some n ∧
    payloadLen n = ((done ++ src).map List.length).sum ∧
    (∀ b, n = .raw b → done ++ src = [b] ∨ done ++ src = [])

theorem buildLoop_spec : ∀ fuel prev depth src st done lnk sz st',
    buildLoop fuel prev depth src st = .ok (lnk, sz, st') →
    1 ≤ depth → (depth = 1 → prev = none) →
    (prev = none → done = []) →
    (∀ p, prev = some p → MetaOK p ∧ p.byteSize = (done.map List.length).sum ∧
      (∀ n, p.link = some n → st.getLast? = some n) ∧
      (∀ b, p.link = some (.raw b) → done = [b]) ∧
      (p.link = none → done = [])) →
    LoopOut done (prevStoredSize prev) src st lnk sz st' := by
  intro fuel
  induction fuel with
  | zero =>
    intro prev depth src st done lnk sz st' h
    simp [buildLoop] at h
  | succ fuel ih =>
    intro prev depth src st done lnk sz st' h hd hd1 hpnone hpsome
    simp only [buildLoop] at h
    cases htr : fileTreeRecursive depth prev.toList src st with
    | error e => rw [htr] at h; cases h
    | ok out =>
      obtain ⟨next, src1, st1⟩ := out
      rw [htr] at h
      have hlen : prev.toList.length ≤ 1 := by cases prev <;> simp
      have hmok : ∀ c ∈ prev.toList, MetaOK c := by
        intro c hc
        cases prev with
        | none => simp at hc
        | some p =>
          simp at hc
          rw [hc]
          exact (hpsome p rfl).1
      have hdch : depth = 1 → prev.toList = [] := fun hh => by rw [hd1 hh]; rfl
      obtain ⟨new1, cons1, hst1, hsrc1, hstored, hbyte, hwok, hmok2, hnz, hne8, hlast, hraw⟩ :=
        tree_spec depth _ src st next src1 st1 htr hlen hmok hdch
      cases prev with
      | none =>
        dsimp only at h
        have hdone : done = [] := hpnone rfl
        subst hdone
        have hhyp : ∀ q, (some next = some q) → MetaOK q ∧
            q.byteSize = (cons1.map List.length).sum ∧
            (∀ n, q.link = some n → st1.getLast? = some n) ∧
            (∀ b, q.link = some (.raw b) → cons1 = [b]) ∧
            (q.link = none → cons1 = []) := by
          intro q hq
          injection hq with hq
          subst hq
          refine ⟨hmok2, by simpa [totalByteSize] using hbyte, ?_, ?_, ?_⟩
          · intro n hn
            rcases hlast n hn with ⟨_, hmem⟩ | hl
            · simp at hmem
            · rw [hst1]
              exact getLast?_append_some hl
          · intro b hb
            rcases hraw b hb with ⟨_, hc, _⟩ | ⟨hmem, _, _⟩
            · exact hc
            · simp at hmem
          · intro hn
            exact (hnz hn).2.1
        have hrec := ih (some next) (depth + 1) src1 st1 cons1 lnk sz st' h (by omega)
          (fun hh => absurd hh (by omega)) (fun hh => absurd hh (by simp)) hhyp
        obtain ⟨new2, n, hst2, hwok2, hsz2, hlnk, hgl, hpay, hrawc⟩ := hrec
        refine ⟨new1 ++ new2, n, by rw [hst2, hst1, List.append_assoc], ?_, ?_, hlnk, hgl, ?_, ?_⟩
        · intro b hb
          rcases List.mem_append.mp hb with hb | hb
          · exact hwok b hb
          · exact hwok2 b hb
        · simp only [totalStoredSize, Option.toList_none, List.map_nil, List.sum_nil] at hstored
          simp only [prevStoredSize] at hsz2 ⊢
          simp only [List.map_append, List.sum_append]
          omega
        · rw [hpay, hsrc1]
          simp
        · intro b hb
          rcases hrawc b hb with hr | hr
          · left
            rw [hsrc1]
            simpa using hr
          · right
            rw [hsrc1]
            simpa using hr
      | some p =>
        dsimp only at h
        by_cases heq : p.link = next.link
        · rw [if_pos heq] at h
          have hsrcnil : src = [] := by
            by_contra hs
            exact (hne8 hs).2 p (by simp) heq.symm
          subst hsrcnil
          have hcons1 : cons1 = [] := by
            rcases List.append_eq_nil.mp hsrc1.symm with ⟨h1, _⟩
            exact h1
          have hsrc1nil : src1 = [] := by
            rcases List.append_eq_nil.mp hsrc1.symm with ⟨_, h2⟩
            exact h2
          obtain ⟨hpm, hpb, hpl, hpr, hpn⟩ := hpsome p rfl
          cases hnl : next.link with
          | none =>
            rw [hnl] at h
            dsimp only at h
            cases h
            have hplnone : p.link = none := heq.trans hnl
            have hdone : done = [] := hpn hplnone
            have hstored0 : p.storedSize = 0 := (hpm.1 hplnone).2
            obtain ⟨hnew1, hcons1', _⟩ := hnz hnl
            refine ⟨[.raw []], .raw [], ?_, ?_, ?_, rfl, ?_, ?_, ?_⟩
            · rw [hst1, hnew1]
              simp
            · intro b hb
              simp at hb
              exact Or.inl ⟨[], hb⟩
            · simp [prevStoredSize, hstored0, storedLen, encodeNode]
            · rw [hst1, hnew1]
              simp [List.getLast?_concat]
            · simp [payloadLen, hdone]
            · intro b _
              right
              simp [hdone]
          | some n0 =>
            rw [hnl] at h
            dsimp only at h
            cases h
            have hpl0 : p.link = some n0 := heq.trans hnl
            refine ⟨new1, n0, hst1, hwok, ?_, rfl, ?_, ?_, ?_⟩
            · simp only [totalStoredSize, Option.toList_some, List.map_cons, List.map_nil,
                List.sum_cons, List.sum_nil] at hstored
              simp only [prevStoredSize]
              omega
            · rcases hlast n0 hnl with ⟨hnew1, _⟩ | hl
              · rw [hst1, hnew1]
                simp only [List.append_nil]
                exact hpl n0 hpl0
              · rw [hst1]
                exact getLast?_append_some hl
            · have hpay := hmok2.2 n0 hnl
              simp only [totalByteSize, Option.toList_some, List.map_cons, List.map_nil,
                List.sum_cons, List.sum_nil, hcons1] at hbyte
              rw [hpay, hbyte, hpb]
              simp [hcons1]
            · intro b hb
              have hnb : next.link = some (.raw b) := by rw [hnl, hb]
              rcases hraw b hnb with ⟨habs, _, _⟩ | ⟨hmem, _, _⟩
              · simp at habs
              · simp at hmem
                subst hmem
                left
                rw [List.append_nil]
                exact hpr b (heq.trans hnb)
        · rw [if_neg heq] at h
          have hhyp : ∀ q, (some next = some q) → MetaOK q ∧
              q.byteSize = (((done ++ cons1)).map List.length).sum ∧
              (∀ n, q.link = some n → st1.getLast? = some n) ∧
              (∀ b, q.link = some (.raw b) → done ++ cons1 = [b]) ∧
              (q.link = none → done ++ cons1 = []) := by
            intro q hq
            injection hq with hq
            subst hq
            obtain ⟨hpm, hpb, hpl, hpr, hpn⟩ := hpsome p rfl
            refine ⟨hmok2, ?_, ?_, ?_, ?_⟩
            · simp only [totalByteSize, Option.toList_some, List.map_cons, List.map_nil,
                List.sum_cons, List.sum_nil] at hbyte
              simp only [List.map_append, List.sum_append]
              omega
            · intro n hn
              rcases hlast n hn with ⟨hnew1, hmem⟩ | hl
              · simp at hmem
                subst hmem
                rw [hst1, hnew1]
                simp only [List.append_nil]
                exact hpl n hn
              · rw [hst1]
                exact getLast?_append_some hl
            · intro b hb
              rcases hraw b hb with ⟨habs, _, _⟩ | ⟨hmem, hc, _⟩
              · simp at habs
              · simp at hmem
                subst hmem
                rw [hc, List.append_nil]
                exact hpr b hb
            · intro hn
              obtain ⟨hnew1, hcons1, hor⟩ := hnz hn
              rcases hor with habs | hmem
              · simp at habs
              · simp at hmem
                subst hmem
                rw [hcons1, List.append_nil]
                exact hpn hn
          have hrec := ih (some next) (depth + 1) src1 st1 (done ++ cons1) lnk sz st' h (by omega)
            (fun hh => absurd hh (by omega)) (fun hh => absurd hh (by simp)) hhyp
          obtain ⟨new2, n, hst2, hwok2, hsz2, hlnk, hgl, hpay, hrawc⟩ := hrec
          refine ⟨new1 ++ new2, n, by rw [hst2, hst1, List.append_assoc], ?_, ?_, hlnk, hgl, ?_, ?_⟩
          · intro b hb
            rcases List.mem_append.mp hb with hb | hb
            · exact hwok b hb
            · exact hwok2 b hb
          · simp only [totalStoredSize, Option.toList_some, List.map_cons, List.map_nil,
              List.sum_cons, List.sum_nil] at hstored
            simp only [prevStoredSize] at hsz2 ⊢
            simp only [List.map_append, List.sum_append]
            omega
          · rw [hpay, hsrc1, List.append_assoc]
          · intro b hb
            rcases hrawc b hb with hr | hr
            · left
              rw [hsrc1, ← List.append_assoc]
              exact hr
            · right
              rw [hsrc1, ← List.append_assoc]
              exact hr

theorem mem_of_getLast?_eq {α : Type} : ∀ {l : List α} {a : α}, l.getLast? = some a → a ∈ l := by
  intro l
  induction l with
  | nil =>
    intro a h
    simp at h
  | cons x xs ih =>
    intro a h
    cases xs with
    | nil =>
      simp at h
      simp [h]
    | cons y ys =>
      rw [List.getLast?_cons_cons] at h
      exact List.mem_cons_of_mem _ (ih h)

theorem buildFile_spec (chunks : List Bytes) (lnk : Link) (sz : Nat) (blocks : List Node)
    (h : BuildUnixFSFile chunks = .ok (lnk, sz, blocks)) :
    LoopOut [] 0 chunks [] lnk sz blocks := by
  have := buildLoop_spec (chunks.length + 2) none 1 chunks [] [] lnk sz blocks h
    (by omega) (fun _ => rfl) (fun _ => rfl) (fun p hp => by cases hp)
  simpa [prevStoredSize] using this

/-- C1: whenever BuildUnixFSFile returns without error, the returned stored
size equals the sum of the byte lengths of every block written to the sink
during the build. -/
theorem buildFile_stored_size_identity (chunks : List Bytes) (lnk : Link) (sz : Nat)
    (blocks : List Node) (h : BuildUnixFSFile chunks = .ok (lnk, sz, blocks)) :
    sz = (blocks.map storedLen).sum := by
  obtain ⟨new, n, hst, _, hsz, _⟩ := buildFile_spec chunks lnk sz blocks h
  rw [hst]
  simpa using hsz

/-- Witness for C1 at the two-chunk stream [[7], [8]]. -/
theorem buildFile_stored_size_identity_witness :
    (30 : Nat) =
      (([Node.raw [7], Node.raw [8],
        Node.pb ⟨2, none, some 2, [1, 1], none, none⟩
          [⟨⟨85, [7]⟩, [], 1⟩, ⟨⟨85, [8]⟩, [], 1⟩]].map storedLen)).sum :=
  buildFile_stored_size_identity [[7], [8]]
    ⟨112, [18, 7, 10, 3, 1, 85, 7, 24, 1, 18, 7, 10, 3, 1, 85, 8, 24, 1,
      10, 8, 8, 2, 24, 2, 32, 1, 32, 1]⟩ 30
    [Node.raw [7], Node.raw [8],
      Node.pb ⟨2, none, some 2, [1, 1], none, none⟩
        [⟨⟨85, [7]⟩, [], 1⟩, ⟨⟨85, [8]⟩, [], 1⟩]] (by rfl)

/-- C8: an empty chunk stream produces exactly one block, the empty raw leaf;
the root is the raw-codec CID over the empty byte string (the SHA-256
multihash being abstracted as the content), and the returned stored size
is 0. -/
theorem buildFile_empty_stream :
    BuildUnixFSFile [] = .ok (mkLink (.raw []), 0, [.raw []]) := by rfl

/-- C7: DefaultLinksPerBlock is 174, the integer quotient 8192 / 47, and no
interior file node written by a successful build carries more than
DefaultLinksPerBlock links. -/
theorem buildFile_fanout_bound :
    DefaultLinksPerBlock = 174 ∧ DefaultLinksPerBlock = 8192 / 47 ∧
    ∀ chunks lnk sz blocks, BuildUnixFSFile chunks = .ok (lnk, sz, blocks) →
      ∀ b ∈ blocks, ∀ meta ls, b = .pb meta ls → ls.length ≤ DefaultLinksPerBlock := by
  refine ⟨by decide, by decide, ?_⟩
  intro chunks lnk sz blocks h b hb meta ls hpb
  obtain ⟨new, n, hst, hwok, _⟩ := buildFile_spec chunks lnk sz blocks h
  rw [hst] at hb
  simp at hb
  rcases hwok b hb with ⟨bs, hrawb⟩ | ⟨cs, _, hle, hpack, _⟩
  · rw [hpb] at hrawb
    cases hrawb
  · rw [hpb] at hpack
    obtain ⟨hmEq, hlsEq⟩ : meta = mkFileMeta (totalByteSize cs) (byteSizes cs) ∧
        ls = cs.map
          (fun c => buildDirectoryEntry [] c.storedSize (mkLink (c.link.getD (.raw [])))) := by
      simpa [packFileChildren] using hpack
    rw [hlsEq, List.length_map]
    exact hle

/-- Witness for C7 at the two-chunk stream [[5], [6]]: the single interior
node has two links, within the bound. -/
theorem buildFile_fanout_bound_witness :
    ([(⟨⟨85, [5]⟩, [], 1⟩ : PBLink), ⟨⟨85, [6]⟩, [], 1⟩] : List PBLink).length ≤
      DefaultLinksPerBlock :=
  buildFile_fanout_bound.2.2 [[5], [6]]
    ⟨112, [18, 7, 10, 3, 1, 85, 5, 24, 1, 18, 7, 10, 3, 1, 85, 6, 24, 1,
      10, 8, 8, 2, 24, 2, 32, 1, 32, 1]⟩ 30
    [Node.raw [5], Node.raw [6],
      Node.pb ⟨2, none, some 2, [1, 1], none, none⟩
        [⟨⟨85, [5]⟩, [], 1⟩, ⟨⟨85, [6]⟩, [], 1⟩]] (by rfl)
    (Node.pb ⟨2, none, some 2, [1, 1], none, none⟩
      [⟨⟨85, [5]⟩, [], 1⟩, ⟨⟨85, [6]⟩, [], 1⟩]) (by simp)
    ⟨2, none, some 2, [1, 1], none, none⟩ _ rfl

/-- C10: every interior file node written by a successful build has at least
two links; a level holding a single shard hands it up unchanged rather than
wrapping it. -/
theorem buildFile_no_unary_interior :
    ∀ chunks lnk sz blocks, BuildUnixFSFile chunks = .ok (lnk, sz, blocks) →
      ∀ b ∈ blocks, ∀ meta ls, b = .pb meta ls → 2 ≤ ls.length := by
  intro chunks lnk sz blocks h b hb meta ls hpb
  obtain ⟨new, n, hst, hwok, _⟩ := buildFile_spec chunks lnk sz blocks h
  rw [hst] at hb
  simp at hb
  rcases hwok b hb with ⟨bs, hrawb⟩ | ⟨cs, htwo, _, hpack, _⟩
  · rw [hpb] at hrawb
    cases hrawb
  · rw [hpb] at hpack
    obtain ⟨hmEq, hlsEq⟩ : meta = mkFileMeta (totalByteSize cs) (byteSizes cs) ∧
        ls = cs.map
          (fun c => buildDirectoryEntry [] c.storedSize (mkLink (c.link.getD (.raw [])))) := by
      simpa [packFileChildren] using hpack
    rw [hlsEq, List.length_map]
    exact htwo

/-- Witness for C10 at the three-chunk stream [[1], [2], [3]]. -/
theorem buildFile_no_unary_interior_witness :
    (2 : Nat) ≤ ([(⟨⟨85, [1]⟩, [], 1⟩ : PBLink), ⟨⟨85, [2]⟩, [], 1⟩,
      ⟨⟨85, [3]⟩, [], 1⟩] : List PBLink).length :=
  buildFile_no_unary_interior [[1], [2], [3]]
    ⟨112, [18, 7, 10, 3, 1, 85, 1, 24, 1, 18, 7, 10, 3, 1, 85, 2, 24, 1,
      18, 7, 10, 3, 1, 85, 3, 24, 1, 10, 10, 8, 2, 24, 3, 32, 1, 32, 1, 32, 1]⟩ 42
    [Node.raw [1], Node.raw [2], Node.raw [3],
      Node.pb ⟨2, none, some 3, [1, 1, 1], none, none⟩
        [⟨⟨85, [1]⟩, [], 1⟩, ⟨⟨85, [2]⟩, [], 1⟩, ⟨⟨85, [3]⟩, [], 1⟩]] (by rfl)
    (Node.pb ⟨2, none, some 3, [1, 1, 1], none, none⟩
      [⟨⟨85, [1]⟩, [], 1⟩, ⟨⟨85, [2]⟩, [], 1⟩, ⟨⟨85, [3]⟩, [], 1⟩]) (by simp)
    ⟨2, none, some 3, [1, 1, 1], none, none⟩ _ rfl

/-- C6: every interior file node carries a File metadata record whose
FileSize is the sum of its BlockSizes, and whose BlockSizes and links arise
from one ordered child list — one BlockSizes entry per link, in order, each
recording the logical byte count of the child that link points to; for a
multi-chunk stream the root is such an interior node whose FileSize is the
total input length. -/
theorem buildFile_fileSize_identity :
    ∀ chunks lnk sz blocks, BuildUnixFSFile chunks = .ok (lnk, sz, blocks) →
      2 ≤ chunks.length →
      (∃ meta ls, blocks.getLast? = some (.pb meta ls) ∧ lnk = mkLink (.pb meta ls) ∧
        meta.dataType = Data_File ∧
        meta.fileSize = some ((chunks.map List.length).sum) ∧
        meta.blockSizes.length = ls.length ∧
        meta.blockSizes.sum = (chunks.map List.length).sum ∧
        (∃ cs, Node.pb meta ls = packFileChildren cs ∧ meta.blockSizes = byteSizes cs ∧
          ∀ c ∈ cs, payloadLen (c.link.getD (.raw [])) = c.byteSize)) ∧
      (∀ b ∈ blocks, ∀ m ls2, b = .pb m ls2 →
        m.fileSize = some m.blockSizes.sum ∧ m.blockSizes.length = ls2.length ∧
        m.dataType = Data_File ∧
        ∃ cs, Node.pb m ls2 = packFileChildren cs ∧
          m.blockSizes = byteSizes cs ∧
          ls2 = cs.map
            (fun c => buildDirectoryEntry [] c.storedSize (mkLink (c.link.getD (.raw [])))) ∧
          ∀ c ∈ cs, payloadLen (c.link.getD (.raw [])) = c.byteSize) := by
  intro chunks lnk sz blocks h h2
  obtain ⟨new, n, hst, hwok, hsz, hlnk, hgl, hpay, hrawc⟩ := buildFile_spec chunks lnk sz blocks h
  have hblocks : blocks = new := by simpa using hst
  have hperblock : ∀ b ∈ blocks, ∀ m ls2, b = .pb m ls2 →
      m.fileSize = some m.blockSizes.sum ∧ m.blockSizes.length = ls2.length ∧
      m.dataType = Data_File ∧
      ∃ cs, Node.pb m ls2 = packFileChildren cs ∧
        m.blockSizes = byteSizes cs ∧
        ls2 = cs.map
          (fun c => buildDirectoryEntry [] c.storedSize (mkLink (c.link.getD (.raw [])))) ∧
        ∀ c ∈ cs, payloadLen (c.link.getD (.raw [])) = c.byteSize := by
    intro b hb m ls2 hpb
    rcases hwok b (hblocks ▸ hb) with ⟨bs, hrawb⟩ | ⟨cs, _, _, hpack, hchild⟩
    · rw [hpb] at hrawb
      cases hrawb
    · rw [hpb] at hpack
      obtain ⟨hm, hls⟩ : m = mkFileMeta (totalByteSize cs) (byteSizes cs) ∧
          ls2 = cs.map
            (fun c => buildDirectoryEntry [] c.storedSize (mkLink (c.link.getD (.raw [])))) := by
        simpa [packFileChildren] using hpack
      subst hm hls
      refine ⟨?_, ?_, rfl, cs, rfl, rfl, rfl, hchild⟩
      · simp [mkFileMeta, byteSizes, totalByteSize]
      · simp [mkFileMeta, byteSizes]
  refine ⟨?_, hperblock⟩
  cases n with
  | raw bs =>
    rcases hrawc bs rfl with hr | hr
    · simp at hr
      rw [hr] at h2
      simp at h2
    · simp at hr
      rw [hr] at h2
      simp at h2
  | pb meta ls =>
    have hmem : Node.pb meta ls ∈ blocks := mem_of_getLast?_eq hgl
    rcases hwok _ (hblocks ▸ hmem) with ⟨bs, hrawb⟩ | ⟨cs, _, _, hpack, hchild⟩
    · cases hrawb
    · obtain ⟨hm, hls⟩ : meta = mkFileMeta (totalByteSize cs) (byteSizes cs) ∧
          ls = cs.map
            (fun c => buildDirectoryEntry [] c.storedSize (mkLink (c.link.getD (.raw [])))) := by
        simpa [packFileChildren] using hpack
      have hfs : meta.fileSize = some ((chunks.map List.length).sum) := by
        simp only [payloadLen, hm, mkFileMeta] at hpay ⊢
        simp at hpay
        rw [← hpay]
      refine ⟨meta, ls, hgl, hlnk, ?_, hfs, ?_, ?_, cs, hpack, ?_, hchild⟩
      · rw [hm]
        rfl
      · rw [hm, hls]
        simp [mkFileMeta, byteSizes]
      · have hthis := (hperblock _ hmem meta ls rfl).1
        rw [hfs] at hthis
        injection hthis with hh
        exact hh.symm
      · rw [hm]
        rfl

/-- Witness for C6 at the two-chunk stream [[9], [10]]. -/
theorem buildFile_fileSize_identity_witness :
    ((∃ meta ls,
      ([Node.raw [9], Node.raw [10],
        Node.pb ⟨2, none, some 2, [1, 1], none, none⟩
          [⟨⟨85, [9]⟩, [], 1⟩, ⟨⟨85, [10]⟩, [], 1⟩]] : List Node).getLast? =
          some (.pb meta ls) ∧
      (⟨112, [18, 7, 10, 3, 1, 85, 9, 24, 1, 18, 7, 10, 3, 1, 85, 10, 24, 1,
        10, 8, 8, 2, 24, 2, 32, 1, 32, 1]⟩ : Link) = mkLink (.pb meta ls) ∧
      meta.dataType = Data_File ∧
      meta.fileSize = some ((([[9], [10]] : List Bytes).map List.length).sum) ∧
      meta.blockSizes.length = ls.length ∧
      meta.blockSizes.sum = (([[9], [10]] : List Bytes).map List.length).sum ∧
      (∃ cs, Node.pb meta ls = packFileChildren cs ∧ meta.blockSizes = byteSizes cs ∧
        ∀ c ∈ cs, payloadLen (c.link.getD (.raw [])) = c.byteSize)) ∧
    (∀ b ∈ ([Node.raw [9], Node.raw [10],
        Node.pb ⟨2, none, some 2, [1, 1], none, none⟩
          [⟨⟨85, [9]⟩, [], 1⟩, ⟨⟨85, [10]⟩, [], 1⟩]] : List Node), ∀ m ls2, b = .pb m ls2 →
      m.fileSize = some m.blockSizes.sum ∧ m.blockSizes.length = ls2.length ∧
      m.dataType = Data_File ∧
      ∃ cs, Node.pb m ls2 = packFileChildren cs ∧
        m.blockSizes = byteSizes cs ∧
        ls2 = cs.map
          (fun c => buildDirectoryEntry [] c.storedSize (mkLink (c.link.getD (.raw [])))) ∧
        ∀ c ∈ cs, payloadLen (c.link.getD (.raw [])) = c.byteSize)) :=
  buildFile_fileSize_identity [[9], [10]]
    ⟨112, [18, 7, 10, 3, 1, 85, 9, 24, 1, 18, 7, 10, 3, 1, 85, 10, 24, 1,
      10, 8, 8, 2, 24, 2, 32, 1, 32, 1]⟩ 30
    [Node.raw [9], Node.raw [10],
      Node.pb ⟨2, none, some 2, [1, 1], none, none⟩
        [⟨⟨85, [9]⟩, [], 1⟩, ⟨⟨85, [10]⟩, [], 1⟩]] (by rfl) (by simp)

/-! ## The HAMT sharded directory builder (translated from the sharded
directory source next to BuildUnixFSShardedDirectory) -/

/-- Translation of hamtLink: the link fields of the entry pointed to, stored
with the hashed key used for addressing, kept here as a bit stream with the
most significant bit of each byte first. -/
structure HamtLink where
  hashBits : List Bool
  name : Bytes
  tsize : Nat
  hashL : Link
deriving Repr, DecidableEq

/-- Translation of the shard struct: hasher, size (the fanout value passed
by callers), width, depth, and the children map. The map is kept as an
association list ordered by bucket index, so equal maps are equal lists. -/
inductive Shard where
  | mk : Nat → Nat → Nat → Nat → List (Nat × (Shard ⊕ HamtLink)) → Shard

/-- The hasher field of a shard. -/
def Shard.hasher : Shard → Nat
  | .mk h _ _ _ _ => h

/-- The size (fanout) field of a shard. -/
def Shard.size : Shard → Nat
  | .mk _ sz _ _ _ => sz

/-- The width field of a shard. -/
def Shard.width : Shard → Nat
  | .mk _ _ w _ _ => w

/-- The depth field of a shard. -/
def Shard.depth : Shard → Nat
  | .mk _ _ _ d _ => d

/-- The children map of a shard. -/
def Shard.children : Shard → List (Nat × (Shard ⊕ HamtLink))
  | .mk _ _ _ _ cs => cs

/-- Association list lookup by bucket index. -/
def lookupKey {α : Type} (k : Nat) : List (Nat × α) → Option α
  | [] => none
  | (k', v) :: t => if k = k' then some v else lookupKey k t

/-- Association list insert-or-replace keeping the keys in increasing
order. -/
def insKey {α : Type} (k : Nat) (v : α) : List (Nat × α) → List (Nat × α)
  | [] => [(k, v)]
  | (k', v') :: t =>
    if k < k' then (k, v) :: (k', v') :: t
    else if k = k' then (k, v) :: t
    else (k', v') :: insKey k v t

/-- The integer value of a bit string, most significant bit first. -/
def bitsVal (bs : List Bool) : Nat :=
  bs.foldl (fun acc b => 2 * acc + (if b then 1 else 0)) 0

/-- Modelled from the spec: hashBits.Slice returns the width bits of the
hash at the given offset as an integer ("slice the group at offset
depth times the group width as the bucket index"), and errors when the hash
has too few bits (a sharded directory too deep). -/
def slice (hash : List Bool) (offset width : Nat) : Except String Nat :=
  if offset + width ≤ hash.length then
    .ok (bitsVal ((hash.drop offset).take width))
  else .error "sharded directory too deep"

/-- The bits of one byte, most significant first. -/
def byteBits (n : Nat) : List Bool :=
  (List.range 8).map (fun i => decide (n / 2 ^ (7 - i) % 2 = 1))

/-- The bit stream of a byte string. -/
def bytesToBits (bs : Bytes) : List Bool := (bs.map byteBits).flatten

/-- Translation of the bucket computation in shard.add: the source slices
s.size bits (the full fanout value) at offset depth times s.size. -/
def bucketOf (s : Shard) (l : HamtLink) : Except String Nat :=
  slice l.hashBits (s.depth * s.size) s.size

/-- Worker for shard.add with explicit structural fuel. The returned shard
reflects every mutation the source performs before an error is reported,
and the boolean is the error the source returns (and its caller drops). -/
def addFuel : Nat → Shard → HamtLink → Shard × Bool
  | 0, s, _ => (s, true)
  | f + 1, .mk h sz w d cs, l =>
    match slice l.hashBits (d * sz) sz with
    | .error _ => (.mk h sz w d cs, true)
    | .ok k =>
      match lookupKey k cs with
      | none => (.mk h sz w d (insKey k (.inr l) cs), false)
      | some (.inl sub) =>
        let r := addFuel f sub l
        (.mk h sz w d (insKey k (.inl r.1) cs), r.2)
      | some (.inr cur) =>
        let ns : Shard := .mk h sz w (d + 1) []
        let r1 := addFuel f ns cur
        if r1.2 then (.mk h sz w d cs, true)
        else
          let r2 := addFuel f r1.1 l
          (.mk h sz w d (insKey k (.inl r2.1) cs), r2.2)

/-- Translation of shard.add. The structural fuel hashBits.length + 2 is
never the binding constraint on a well-formed shard (addFuel_stable). -/
def Shard.add (s : Shard) (l : HamtLink) : Shard × Bool :=
  addFuel (l.hashBits.length + 2) s l

/-- Translation of the insertion loop of BuildUnixFSShardedDirectory: every
entry is added in turn and, as in the source, the error returned by add is
dropped; the boolean records whether any add reported an error. -/
def addAll (s : Shard) : List HamtLink → Shard × Bool
  | [] => (s, false)
  | l :: t =>
    let r := Shard.add s l
    let r2 := addAll r.1 t
    (r2.1, r.2 || r2.2)

/-- One uppercase hexadecimal digit (Go fmt verb X). -/
def hexDigit (d : Nat) : Nat := if d < 10 then 48 + d else 55 + d

/-- Worker for hexUpper with structural fuel. -/
def hexGo : Nat → Nat → Bytes
  | 0, _ => []
  | f + 1, n => if n < 16 then [hexDigit n] else hexGo f (n / 16) ++ [hexDigit (n % 16)]

/-- The uppercase hexadecimal digits of n, most significant first, with no
leading zeros (and a single 0 digit for n = 0), as Go fmt %X renders. -/
def hexUpper (n : Nat) : Bytes := hexGo (n + 1) n

/-- Translation of the width computation len(fmt.Sprintf(percent-X,
size-1)) in BuildUnixFSShardedDirectory. -/
def widthOfSize (size : Nat) : Nat := (hexUpper (size - 1)).length

/-- Translation of shard.formatLinkName, Sprintf with the verb star-X
followed by the name: the hexadecimal digits of the index are padded on the
LEFT WITH SPACES (byte 32) up to the width, because the Go verb star-X pads
with spaces; zero padding would require the 0 flag. The entry name is
appended. -/
def formatLinkName (width : Nat) (name : Bytes) (idx : Nat) : Bytes :=
  List.replicate (width - (hexUpper idx).length) 32 ++ hexUpper idx ++ name

/-- Modelled from the spec: the shard bitmap has one bit per bucket, set
when the bucket is occupied, encoded big-endian with the leftmost bit
representing index 0, padded to a byte boundary. -/
def bitmapBytes (size : Nat) (cs : List (Nat × (Shard ⊕ HamtLink))) : Bytes :=
  (List.range ((size + 7) / 8)).map (fun j =>
    ((List.range 8).map (fun b =>
      if 8 * j + b < size ∧ (lookupKey (8 * j + b) cs).isSome then 2 ^ (7 - b) else 0)).sum)

/-- Modelled from the spec: BuildUnixFS for a shard produces a HAMTShard
metadata record carrying the bitmap, the hasher and the fanout. -/
def mkShardMeta (hasher size : Nat) (bitmap : Bytes) : UnixMeta :=
  ⟨Data_HAMTShard, some bitmap, none, [], some hasher, some size⟩

/-- One pass over the children of a shard during serialization: a bucket
holding a child shard is serialized first (through the go closure) and
linked under the space-padded hex prefix with Tsize 0; a bucket holding a
leaf entry is linked under the prefix followed by the entry name with the
entry's Tsize and hash. -/
def serializeKids (go : Shard → List Node → Except String (Link × List Node))
    (width : Nat) : List (Nat × (Shard ⊕ HamtLink)) → List Node →
    Except String (List PBLink × List Node)
  | [], st => .ok ([], st)
  | (k, .inl sub) :: rest, st =>
    match go sub st with
    | .error e => .error e
    | .ok (l, st') =>
      match serializeKids go width rest st' with
      | .error e => .error e
      | .ok (pls, st'') => .ok (⟨l, formatLinkName width [] k, 0⟩ :: pls, st'')
  | (k, .inr e) :: rest, st =>
    match serializeKids go width rest st with
    | .error er => .error er
    | .ok (pls, st') => .ok (⟨e.hashL, formatLinkName width e.name k, e.tsize⟩ :: pls, st')

/-- Translation of shard.serialize with structural fuel: serialize the
children post-order, then wrap them in a dag-pb node whose Data is the
HAMTShard record over the bitmap, store it and return its link. Bucket
indexes at or beyond the byte-padded bitmap width are rejected here as a
modelling guard (the source serializer emits links for such buckets while
its bitmap, which only covers indexes below the fanout, ignores them); on a
trie whose bucket indexes stay below the fanout the guard never fires and
the two serializers agree. -/
def serializeFuel : Nat → Shard → List Node → Except String (Link × List Node)
  | 0, _, _ => .error "shard recursion too deep"
  | f + 1, .mk h sz w _ cs, st =>
    if cs.all (fun p => p.1 < 8 * ((sz + 7) / 8)) then
      match serializeKids (serializeFuel f) w cs st with
      | .error e => .error e
      | .ok (pls, st') =>
        let node := Node.pb (mkShardMeta h sz (bitmapBytes sz cs)) pls
        .ok (mkLink node, st' ++ [node])
    else .error "bitfield index out of range"

/-- The murmur3-x64-64 digest of the empty input is eight zero bytes: the
finalization of the all-zero state over a zero-length input yields zero. -/
def murmurEmpty : Bytes := [0, 0, 0, 0, 0, 0, 0, 0]

/-- The empty root shard with which BuildUnixFSShardedDirectory starts. -/
def rootShard (size hasher : Nat) : Shard :=
  .mk hasher size (widthOfSize size) 0 []

/-- The hashing pass of BuildUnixFSShardedDirectory: the source calls
h.Sum(name-bytes) on a freshly obtained hasher, and Go hash.Hash.Sum
APPENDS the digest of everything written so far (nothing) to its argument,
so the effective key is the name bytes followed by the digest of the empty
input; the builder is parameterized here by that digest. -/
def mkHamtEntries (emptyDigest : Bytes) (entries : List PBLink) : List HamtLink :=
  entries.map (fun e => ⟨bytesToBits (e.name ++ emptyDigest), e.name, e.tsize, e.hash⟩)

/-- Translation of BuildUnixFSShardedDirectory: hash the entries, insert
them into the root shard with the error of each insertion dropped as in the
source, and serialize. -/
def BuildUnixFSShardedDirectory (size hasher : Nat) (emptyDigest : Bytes)
    (entries : List PBLink) : Except String (Link × List Node) :=
  let hamtEntries := mkHamtEntries emptyDigest entries
  let r := addAll (rootShard size hasher) hamtEntries
  serializeFuel ((hamtEntries.map (·.hashBits.length)).sum + 2) r.1 []

/-- A directory entry named by the single byte 97, hashed as the source
does. -/
def aEnt : HamtLink := ⟨bytesToBits ([97] ++ murmurEmpty), [97], 1, ⟨85, [97]⟩⟩

/-- C2: with fanout 16, the bucket index the source computes for an entry is
the 16-bit group of the hash (the full fanout value is used as the bit
width), not the log2-16 = 4-bit group the spec prescribes; the resulting
index 24832 is far outside the 16 buckets of the shard, and the entry is
placed under that impossible index. -/
theorem hamt_bucket_is_full_fanout_slice :
    bucketOf (rootShard 16 0x22) aEnt = .ok 24832 ∧
    (2 : Nat) ^ 4 = 16 ∧ slice aEnt.hashBits (0 * 4) 4 = .ok 6 ∧
    (24832 : Nat) ≠ 6 ∧ 16 ≤ 24832 ∧
    (lookupKey 24832 ((Shard.add (rootShard 16 0x22) aEnt).1.children)).isSome = true := by
  refine ⟨by decide, by decide, by decide, by decide, by decide, by decide⟩

/-- First colliding entry for the collision claims (name 0x00 0x00). -/
def uColl : PBLink := ⟨⟨85, [0, 0]⟩, [0, 0], 1⟩

/-- Second colliding entry for the collision claims (name 0x00 0x00 0x00);
its hash agrees with uColl on every group until uColl's bits run out. -/
def vColl : PBLink := ⟨⟨85, [0, 0, 0]⟩, [0, 0, 0], 1⟩

/-- C4: inserting vColl after uColl exhausts uColl's hash bits, the
insertion reports the sharded-directory-too-deep error, yet
BuildUnixFSShardedDirectory drops that error and returns success; the
serialized output contains uColl's link name (hex prefix 48 followed by the
name) and no link for vColl, which has been silently dropped. -/
theorem hamt_collision_error_swallowed :
    (addAll (rootShard 16 0x22) (mkHamtEntries murmurEmpty [uColl, vColl])).2 = true ∧
    (BuildUnixFSShardedDirectory 16 0x22 murmurEmpty [uColl, vColl]).isOk = true ∧
    ((BuildUnixFSShardedDirectory 16 0x22 murmurEmpty [uColl, vColl]).map (fun r =>
      r.2.any (fun b => match b with
        | .raw _ => false
        | .pb _ ls => ls.any (fun l => l.name == [48, 0, 0, 0])))) = .ok false ∧
    ((BuildUnixFSShardedDirectory 16 0x22 murmurEmpty [uColl, vColl]).map (fun r =>
      r.2.any (fun b => match b with
        | .raw _ => false
        | .pb _ ls => ls.any (fun l => l.name == [48, 0, 0])))) = .ok true := by
  refine ⟨by decide, by decide, by decide, by decide⟩

/-- C5: with fanout 256 the hex prefix width is 2, and the link name the
source renders for bucket index 5 and entry name byte 120 starts with a
SPACE (byte 32), not with the zero digit (byte 48) that zero padding would
produce. -/
theorem hamt_linkname_space_padded :
    formatLinkName (widthOfSize 256) [120] 5 = [32, 53, 120] ∧
    formatLinkName (widthOfSize 256) [120] 5 ≠ [48, 53, 120] ∧
    widthOfSize 256 = 2 := by
  refine ⟨by decide, by decide, by decide⟩

/-- First entry of the order-dependence counterexample (name 0x00). -/
def uOrd : PBLink := ⟨⟨85, [0]⟩, [0], 1⟩

/-- Second entry of the order-dependence counterexample (name 0x00 0x00). -/
def vOrd : PBLink := ⟨⟨85, [0, 0]⟩, [0, 0], 1⟩

/-- C3 counterexample: the same entry set inserted in the two orders
produces different outputs (different roots): with uOrd first the build
writes four shard blocks, with vOrd first it writes five, because the
hash-exhaustion error is dropped and whichever entry is inserted first
survives, at its own depth. -/
theorem hamt_order_dependent_cex :
    (BuildUnixFSShardedDirectory 16 0x22 murmurEmpty [uOrd, vOrd]).map
      (fun r => r.2.length) = .ok 4 ∧
    (BuildUnixFSShardedDirectory 16 0x22 murmurEmpty [vOrd, uOrd]).map
      (fun r => r.2.length) = .ok 5 ∧
    BuildUnixFSShardedDirectory 16 0x22 murmurEmpty [uOrd, vOrd] ≠
    BuildUnixFSShardedDirectory 16 0x22 murmurEmpty [vOrd, uOrd] := by
  refine ⟨by decide, by decide, ?_⟩
  intro he
  have h4 : (BuildUnixFSShardedDirectory 16 0x22 murmurEmpty [uOrd, vOrd]).map
      (fun r => r.2.length) = .ok 4 := by decide
  have h5 : (BuildUnixFSShardedDirectory 16 0x22 murmurEmpty [vOrd, uOrd]).map
      (fun r => r.2.length) = .ok 5 := by decide
  rw [he, h5] at h4
  cases h4

/-! ## Order independence of the shard builder in the error-free case

The association-list operations of the shard children map, and the fuel
discipline of addFuel, support a commutation argument: two error-free
insertions commute, so the whole build is invariant under permutation of
the entry list whenever no insertion reports an error. -/

theorem lookupKey_mem {α : Type} {k : Nat} {v : α} : ∀ {cs : List (Nat × α)},
    lookupKey k cs = some v → (k, v) ∈ cs := by
  intro cs
  induction cs with
  | nil => intro h; cases h
  | cons p t ih =>
    intro h
    simp only [lookupKey] at h
    by_cases hk : k = p.1
    · rw [if_pos hk] at h
      cases h
      rw [hk]
      simp
    · rw [if_neg hk] at h
      right
      exact ih h

theorem lookup_insKey_self {α : Type} {k : Nat} {v : α} : ∀ (cs : List (Nat × α)),
    lookupKey k (insKey k v cs) = some v := by
  intro cs
  induction cs with
  | nil => simp [insKey, lookupKey]
  | cons p t ih =>
    simp only [insKey]
    by_cases h1 : k < p.1
    · rw [if_pos h1]; simp [lookupKey]
    · rw [if_neg h1]
      by_cases h2 : k = p.1
      · rw [if_pos h2]; simp [lookupKey]
      · rw [if_neg h2]
        simp only [lookupKey]
        rw [if_neg (by exact fun hh => h2 hh)]
        exact ih

theorem lookup_insKey_ne {α : Type} {k k' : Nat} {v : α} (hne : k' ≠ k) :
    ∀ (cs : List (Nat × α)), lookupKey k' (insKey k v cs) = lookupKey k' cs := by
  intro cs
  induction cs with
  | nil => simp [insKey, lookupKey, hne]
  | cons p t ih =>
    simp only [insKey]
    by_cases h1 : k < p.1
    · rw [if_pos h1]
      simp only [lookupKey]
      rw [if_neg hne]
    · rw [if_neg h1]
      by_cases h2 : k = p.1
      · rw [if_pos h2]
        simp only [lookupKey]
        rw [if_neg hne, if_neg (h2 ▸ hne)]
      · rw [if_neg h2]
        simp only [lookupKey]
        by_cases h3 : k' = p.1
        · rw [if_pos h3, if_pos h3]
        · rw [if_neg h3, if_neg h3]
          exact ih

theorem insKey_insKey_self {α : Type} {k : Nat} {v v' : α} : ∀ (cs : List (Nat × α)),
    insKey k v (insKey k v' cs) = insKey k v cs := by
  intro cs
  induction cs with
  | nil => simp [insKey]
  | cons p t ih =>
    simp only [insKey]
    by_cases h1 : k < p.1
    · rw [if_pos h1]
      simp [insKey, h1]
    · rw [if_neg h1]
      by_cases h2 : k = p.1
      · rw [if_pos h2]
        simp [insKey, h1, h2]
      · rw [if_neg h2]
        simp only [insKey]
        rw [if_neg h1, if_neg h2]
        rw [ih, if_neg h1, if_neg h2]

theorem mem_insKey {α : Type} {p : Nat × α} {k : Nat} {v : α} : ∀ {cs : List (Nat × α)},
    p ∈ insKey k v cs → p = (k, v) ∨ p ∈ cs := by
  intro cs
  induction cs with
  | nil => intro h; simp only [insKey] at h; left; simpa using h
  | cons q t ih =>
    intro h
    simp only [insKey] at h
    by_cases h1 : k < q.1
    · rw [if_pos h1] at h
      rcases List.mem_cons.mp h with h | h
      · left; exact h
      · right; exact h
    · rw [if_neg h1] at h
      by_cases h2 : k = q.1
      · rw [if_pos h2] at h
        rcases List.mem_cons.mp h with h | h
        · left; exact h
        · right; exact List.mem_cons_of_mem q h
      · rw [if_neg h2] at h
        rcases List.mem_cons.mp h with h | h
        · right; exact h ▸ List.mem_cons_self q t
        · rcases ih h with h' | h'
          · left; exact h'
          · right; exact List.mem_cons_of_mem q h'

theorem insKey_comm_lt {α : Type} {k k' : Nat} {v v' : α} (hlt : k < k') :
    ∀ (cs : List (Nat × α)),
    insKey k v (insKey k' v' cs) = insKey k' v' (insKey k v cs) := by
  have hne : ¬k = k' := Nat.ne_of_lt hlt
  have hlt' : ¬k' < k := Nat.not_lt.mpr (Nat.le_of_lt hlt)
  have hne' : ¬k' = k := fun h => hne h.symm
  intro cs
  induction cs with
  | nil => simp [insKey, hlt, hlt', hne']
  | cons q t ih =>
    rcases q with ⟨qa, qb⟩
    by_cases ha1 : k' < qa
    · have hka : k < qa := Nat.lt_trans hlt ha1
      simp [insKey, ha1, hka, hlt, hlt', hne']
    · by_cases ha2 : k' = qa
      · subst ha2
        simp [insKey, ha1, hlt, hlt', hne']
      · by_cases hb1 : k < qa
        · simp [insKey, ha1, ha2, hb1, hlt', hne']
        · by_cases hb2 : k = qa
          · subst hb2
            simp [insKey, ha1, ha2, hb1, hlt, hlt', hne']
          · simp [insKey, ha1, ha2, hb1, hb2, ih]

theorem insKey_comm {α : Type} {k k' : Nat} {v v' : α} (hne : k ≠ k')
    (cs : List (Nat × α)) :
    insKey k v (insKey k' v' cs) = insKey k' v' (insKey k v cs) := by
  rcases Nat.lt_or_ge k k' with h | h
  · exact insKey_comm_lt h cs
  · rcases Nat.lt_or_ge k' k with h' | h'
    · exact (insKey_comm_lt h' cs).symm
    · exact absurd (Nat.le_antisymm h h') (fun he => hne he.symm)

/-- The well-formedness invariant of a shard tree as the builder creates
it: the fanout is at least 1, and every child shard repeats the hasher,
size and width of its parent at depth one greater. -/
inductive WF : Shard → Prop where
  | mk : ∀ (h sz w d : Nat) (cs : List (Nat × (Shard ⊕ HamtLink))),
      1 ≤ sz →
      (∀ k c, (k, Sum.inl c) ∈ cs →
        c.hasher = h ∧ c.size = sz ∧ c.width = w ∧ c.depth = d + 1) →
      (∀ k c, (k, Sum.inl c) ∈ cs → WF c) →
      WF (.mk h sz w d cs)

theorem WF_nil {h sz w d : Nat} (hsz : 1 ≤ sz) : WF (.mk h sz w d []) := by
  refine WF.mk h sz w d [] hsz ?_ ?_
  · intro k c hc
    cases hc
  · intro k c hc
    cases hc

/-- Every branch of addFuel keeps the hasher, size, width and depth of the
shard it returns. -/
theorem addFuel_shape : ∀ (f : Nat) (h sz w d : Nat)
    (cs : List (Nat × (Shard ⊕ HamtLink))) (l : HamtLink),
    ∃ cs' b, addFuel f (.mk h sz w d cs) l = (.mk h sz w d cs', b) := by
  intro f h sz w d cs l
  cases f with
  | zero => exact ⟨cs, true, rfl⟩
  | succ f =>
    simp only [addFuel]
    cases hk : slice l.hashBits (d * sz) sz with
    | error e => exact ⟨cs, true, rfl⟩
    | ok k =>
      dsimp only
      cases hl : lookupKey k cs with
      | none => exact ⟨_, _, rfl⟩
      | some v =>
        cases v with
        | inl sub => exact ⟨_, _, rfl⟩
        | inr cur =>
          dsimp only
          cases h1 : (addFuel f (.mk h sz w (d + 1) []) cur).2 with
          | true => exact ⟨cs, true, by simp [h1]⟩
          | false =>
            exact ⟨insKey k (Sum.inl (addFuel f (addFuel f (Shard.mk h sz w (d + 1) []) cur).1 l).1) cs,
              (addFuel f (addFuel f (Shard.mk h sz w (d + 1) []) cur).1 l).2, by simp [h1]⟩

/-- One-step unfolding of addFuel at positive fuel, with the recursive
calls kept folded. -/
theorem addFuel_succ_eq (f h sz w d : Nat) (cs : List (Nat × (Shard ⊕ HamtLink)))
    (l : HamtLink) :
    addFuel (f + 1) (.mk h sz w d cs) l =
      match slice l.hashBits (d * sz) sz with
      | .error _ => (.mk h sz w d cs, true)
      | .ok k =>
        match lookupKey k cs with
        | none => (.mk h sz w d (insKey k (.inr l) cs), false)
        | some (.inl sub) =>
          (.mk h sz w d (insKey k (.inl (addFuel f sub l).1) cs), (addFuel f sub l).2)
        | some (.inr cur) =>
          if (addFuel f (.mk h sz w (d + 1) []) cur).2 then (.mk h sz w d cs, true)
          else
            (.mk h sz w d
              (insKey k (.inl (addFuel f (addFuel f (.mk h sz w (d + 1) []) cur).1 l).1) cs),
              (addFuel f (addFuel f (.mk h sz w (d + 1) []) cur).1 l).2) := rfl

/-- The four constant fields of the shard returned by addFuel. -/
theorem addFuel_fields (f : Nat) (s : Shard) (l : HamtLink) :
    (addFuel f s l).1.hasher = s.hasher ∧ (addFuel f s l).1.size = s.size ∧
    (addFuel f s l).1.width = s.width ∧ (addFuel f s l).1.depth = s.depth := by
  cases s with
  | mk h sz w d cs =>
    obtain ⟨cs', b, he⟩ := addFuel_shape f h sz w d cs l
    rw [he]
    exact ⟨rfl, rfl, rfl, rfl⟩

/-- On a shard with no children an insertion never recurses, so any
positive fuel gives the same result. -/
theorem addFuel_empty (f g h sz w d : Nat) (cur : HamtLink)
    (hf : 1 ≤ f) (hg : 1 ≤ g) :
    addFuel f (.mk h sz w d []) cur = addFuel g (.mk h sz w d []) cur := by
  cases f with
  | zero => exact absurd hf (by omega)
  | succ f =>
    cases g with
    | zero => exact absurd hg (by omega)
    | succ g =>
      simp only [addFuel]
      cases hk : slice cur.hashBits (d * sz) sz with
      | error e => rfl
      | ok k => rfl

/-- addFuel preserves well-formedness of the shard. -/
theorem addFuel_WF : ∀ (f : Nat) (s : Shard) (l : HamtLink), WF s →
    WF (addFuel f s l).1 := by
  intro f
  induction f with
  | zero => intro s l hwf; exact hwf
  | succ f ih =>
    intro s l hwf
    cases s with
    | mk h sz w d cs =>
      cases hwf with
      | mk _ _ _ _ _ hsz hflds hsub =>
        simp only [addFuel]
        cases hk : slice l.hashBits (d * sz) sz with
        | error e => exact WF.mk h sz w d cs hsz hflds hsub
        | ok k =>
          dsimp only
          cases hl : lookupKey k cs with
          | none =>
            refine WF.mk h sz w d _ hsz ?_ ?_
            · intro k' c hc
              rcases mem_insKey hc with h' | h'
              · simp at h'
              · exact hflds k' c h'
            · intro k' c hc
              rcases mem_insKey hc with h' | h'
              · simp at h'
              · exact hsub k' c h'
          | some v =>
            cases v with
            | inl sub =>
              have hmem := lookupKey_mem hl
              have hf4 := hflds k sub hmem
              have hwsub := hsub k sub hmem
              refine WF.mk h sz w d _ hsz ?_ ?_
              · intro k' c hc
                rcases mem_insKey hc with h' | h'
                · have h2 : Sum.inl c = Sum.inl ((addFuel f sub l).1) :=
                    congrArg Prod.snd h'
                  have h3 : c = (addFuel f sub l).1 := by injection h2
                  subst h3
                  obtain ⟨e1, e2, e3, e4⟩ := addFuel_fields f sub l
                  obtain ⟨g1, g2, g3, g4⟩ := hf4
                  exact ⟨by rw [e1, g1], by rw [e2, g2], by rw [e3, g3], by rw [e4, g4]⟩
                · exact hflds k' c h'
              · intro k' c hc
                rcases mem_insKey hc with h' | h'
                · have h2 : Sum.inl c = Sum.inl ((addFuel f sub l).1) :=
                    congrArg Prod.snd h'
                  have h3 : c = (addFuel f sub l).1 := by injection h2
                  subst h3
                  exact ih sub l hwsub
                · exact hsub k' c h'
            | inr cur =>
              dsimp only
              cases h1 : (addFuel f (.mk h sz w (d + 1) []) cur).2 with
              | true =>
                simp only [h1, if_pos]
                exact WF.mk h sz w d cs hsz hflds hsub
              | false =>
                simp only [h1, Bool.false_eq_true, if_neg, not_false_eq_true]
                have hw1 : WF (addFuel f (.mk h sz w (d + 1) []) cur).1 :=
                  ih _ cur (WF_nil hsz)
                have hw2 : WF (addFuel f (addFuel f (.mk h sz w (d + 1) []) cur).1 l).1 :=
                  ih _ l hw1
                obtain ⟨a1, a2, a3, a4⟩ := addFuel_fields f (.mk h sz w (d + 1) []) cur
                obtain ⟨b1, b2, b3, b4⟩ :=
                  addFuel_fields f (addFuel f (.mk h sz w (d + 1) []) cur).1 l
                refine WF.mk h sz w d _ hsz ?_ ?_
                · intro k' c hc
                  rcases mem_insKey hc with h' | h'
                  · have h2 : Sum.inl c =
                        Sum.inl ((addFuel f (addFuel f (.mk h sz w (d + 1) []) cur).1 l).1) :=
                      congrArg Prod.snd h'
                    have h3 : c = (addFuel f (addFuel f (.mk h sz w (d + 1) []) cur).1 l).1 := by
                      injection h2
                    subst h3
                    refine ⟨?_, ?_, ?_, ?_⟩
                    · rw [b1, a1]; rfl
                    · rw [b2, a2]; rfl
                    · rw [b3, a3]; rfl
                    · rw [b4, a4]; rfl
                  · exact hflds k' c h'
                · intro k' c hc
                  rcases mem_insKey hc with h' | h'
                  · have h2 : Sum.inl c =
                        Sum.inl ((addFuel f (addFuel f (.mk h sz w (d + 1) []) cur).1 l).1) :=
                      congrArg Prod.snd h'
                    have h3 : c = (addFuel f (addFuel f (.mk h sz w (d + 1) []) cur).1 l).1 := by
                      injection h2
                    subst h3
                    exact hw2
                  · exact hsub k' c h'

/-- Fuel stability: on a well-formed shard, once the fuel together with the
current depth exceeds the hash length plus one, one more unit of fuel does
not change the result — every recursion either stops at a free bucket or
errors when the bits run out. -/
theorem addFuel_stable : ∀ (f : Nat) (s : Shard) (l : HamtLink), WF s →
    l.hashBits.length + 2 ≤ s.depth + f →
    addFuel f s l = addFuel (f + 1) s l := by
  intro f
  induction f with
  | zero =>
    intro s l hwf hb
    cases s with
    | mk h sz w d cs =>
      cases hwf with
      | mk _ _ _ _ _ hsz hflds hsub =>
        simp only [Shard.depth] at hb
        have hfail : ¬(d * sz + sz ≤ l.hashBits.length) := by
          have h1 : d ≤ d * sz := Nat.le_mul_of_pos_right d hsz
          omega
        simp [addFuel, slice, hfail]
  | succ f ih =>
    intro s l hwf hb
    cases s with
    | mk h sz w d cs =>
      cases hwf with
      | mk _ _ _ _ _ hsz hflds hsub =>
        simp only [Shard.depth] at hb
        rw [addFuel_succ_eq f h sz w d cs l, addFuel_succ_eq (f + 1) h sz w d cs l]
        cases hk : slice l.hashBits (d * sz) sz with
        | error e => rfl
        | ok k =>
          dsimp only
          cases hl : lookupKey k cs with
          | none => rfl
          | some v =>
            cases v with
            | inl sub =>
              dsimp only
              have hmem := lookupKey_mem hl
              have hf4 := hflds k sub hmem
              have hwsub := hsub k sub hmem
              have hrec : addFuel f sub l = addFuel (f + 1) sub l := by
                apply ih sub l hwsub
                rw [hf4.2.2.2]
                omega
              rw [hrec]
            | inr cur =>
              dsimp only
              have hok : d * sz + sz ≤ l.hashBits.length := by
                by_contra hno
                simp [slice, hno] at hk
              have hdl : d + 1 ≤ l.hashBits.length := by
                have h1 : d ≤ d * sz := Nat.le_mul_of_pos_right d hsz
                omega
              have hemp : addFuel f (.mk h sz w (d + 1) []) cur =
                  addFuel (f + 1) (.mk h sz w (d + 1) []) cur :=
                addFuel_empty f (f + 1) h sz w (d + 1) cur (by omega) (by omega)
              rw [← hemp]
              have hr1 : WF (addFuel f (.mk h sz w (d + 1) []) cur).1 :=
                addFuel_WF f _ cur (WF_nil hsz)
              have hr1d : (addFuel f (.mk h sz w (d + 1) []) cur).1.depth = d + 1 :=
                (addFuel_fields f _ cur).2.2.2
              have hstep : addFuel f (addFuel f (.mk h sz w (d + 1) []) cur).1 l =
                  addFuel (f + 1) (addFuel f (.mk h sz w (d + 1) []) cur).1 l := by
                apply ih _ l hr1
                rw [hr1d]
                omega
              rw [hstep]

/-- Iterated fuel stability. -/
theorem addFuel_ge : ∀ (k f : Nat) (s : Shard) (l : HamtLink), WF s →
    l.hashBits.length + 2 ≤ s.depth + f →
    addFuel f s l = addFuel (f + k) s l := by
  intro k
  induction k with
  | zero => intro f s l _ _; rfl
  | succ k ih =>
    intro f s l hwf hb
    rw [ih f s l hwf hb, addFuel_stable (f + k) s l hwf (by omega), Nat.add_assoc]

/-- Any two sufficient fuels give the same insertion result. -/
theorem addFuel_congr (f g : Nat) (s : Shard) (l : HamtLink) (hwf : WF s)
    (hf : l.hashBits.length + 2 ≤ s.depth + f)
    (hg : l.hashBits.length + 2 ≤ s.depth + g) :
    addFuel f s l = addFuel g s l := by
  rcases Nat.le_total f g with h | h
  · have he := addFuel_ge (g - f) f s l hwf hf
    have harith : f + (g - f) = g := by omega
    rw [harith] at he
    exact he
  · have he := addFuel_ge (f - g) g s l hwf hg
    have harith : g + (f - g) = f := by omega
    rw [harith] at he
    exact he.symm

/-- An error-free insertion at bucket k is the insertion of one
well-defined value at key k, and performs the same action on any children
list that agrees with the original at key k. -/
theorem addFuel_step (f h sz w d : Nat) (cs : List (Nat × (Shard ⊕ HamtLink)))
    (l : HamtLink) (k : Nat)
    (hk : slice l.hashBits (d * sz) sz = .ok k)
    (hfl : (addFuel (f + 1) (.mk h sz w d cs) l).2 = false) :
    ∃ v, ∀ cs', lookupKey k cs' = lookupKey k cs →
      addFuel (f + 1) (.mk h sz w d cs') l = (.mk h sz w d (insKey k v cs'), false) := by
  rw [addFuel_succ_eq f h sz w d cs l, hk] at hfl
  dsimp only at hfl
  cases hl : lookupKey k cs with
  | none =>
    refine ⟨.inr l, ?_⟩
    intro cs' hcs'
    rw [addFuel_succ_eq f h sz w d cs' l, hk]
    dsimp only
    rw [hcs']
  | some v =>
    cases v with
    | inl sub =>
      rw [hl] at hfl
      dsimp only at hfl
      refine ⟨.inl (addFuel f sub l).1, ?_⟩
      intro cs' hcs'
      rw [addFuel_succ_eq f h sz w d cs' l, hk]
      dsimp only
      rw [hcs']
      dsimp only
      rw [hfl]
    | inr cur =>
      rw [hl] at hfl
      dsimp only at hfl
      cases h1 : (addFuel f (.mk h sz w (d + 1) []) cur).2 with
      | true => rw [h1] at hfl; simp at hfl
      | false =>
        simp only [h1, Bool.false_eq_true, if_false] at hfl
        refine ⟨.inl (addFuel f (addFuel f (.mk h sz w (d + 1) []) cur).1 l).1, ?_⟩
        intro cs' hcs'
        rw [addFuel_succ_eq f h sz w d cs' l, hk]
        dsimp only
        rw [hcs']
        dsimp only
        rw [h1]
        simp [hfl]

/-- Two error-free insertions commute: the first insertion of the reversed
order is also error-free, and the two orders build the same shard with the
same final flag. -/
theorem addFuel_comm : ∀ (F : Nat) (s : Shard) (x y : HamtLink), WF s →
    (addFuel F s y).2 = false →
    (addFuel F (addFuel F s y).1 x).2 = false →
    (addFuel F s x).2 = false ∧
    addFuel F (addFuel F s y).1 x = addFuel F (addFuel F s x).1 y := by
  intro F
  induction F with
  | zero =>
    intro s x y hwf hy hxy
    simp [addFuel] at hy
  | succ f ih =>
    intro s x y hwf hy hxy
    cases s with
    | mk h sz w d cs =>
      cases hwf with
      | mk _ _ _ _ _ hsz hflds hsub =>
        cases hky : slice y.hashBits (d * sz) sz with
        | error e =>
          rw [addFuel_succ_eq f h sz w d cs y, hky] at hy
          simp at hy
        | ok ky =>
          cases hkx : slice x.hashBits (d * sz) sz with
          | error e =>
            exfalso
            obtain ⟨cs1, b1, he1⟩ := addFuel_shape (f + 1) h sz w d cs y
            rw [he1] at hxy
            dsimp only at hxy
            rw [addFuel_succ_eq f h sz w d cs1 x, hkx] at hxy
            simp at hxy
          | ok kx =>
            by_cases hkk : kx = ky
            · subst hkk
              cases hl : lookupKey kx cs with
              | none =>
                have hyeq : addFuel (f + 1) (.mk h sz w d cs) y =
                    (.mk h sz w d (insKey kx (.inr y) cs), false) := by
                  rw [addFuel_succ_eq f h sz w d cs y, hky]
                  dsimp only
                  rw [hl]
                rw [hyeq] at hxy
                dsimp only at hxy
                rw [addFuel_succ_eq f h sz w d (insKey kx (Sum.inr y) cs) x, hkx] at hxy
                dsimp only at hxy
                rw [lookup_insKey_self] at hxy
                dsimp only at hxy
                cases hp : (addFuel f (.mk h sz w (d + 1) []) y).2 with
                | true => rw [hp] at hxy; simp at hxy
                | false =>
                  simp only [hp, Bool.false_eq_true, if_false] at hxy
                  obtain ⟨hx0, heq⟩ := ih (.mk h sz w (d + 1) []) x y (WF_nil hsz) hp hxy
                  have hxeq : addFuel (f + 1) (.mk h sz w d cs) x =
                      (.mk h sz w d (insKey kx (.inr x) cs), false) := by
                    rw [addFuel_succ_eq f h sz w d cs x, hkx]
                    dsimp only
                    rw [hl]
                  refine ⟨by rw [hxeq], ?_⟩
                  rw [hyeq, hxeq]
                  dsimp only
                  rw [addFuel_succ_eq f h sz w d (insKey kx (Sum.inr y) cs) x, hkx,
                      addFuel_succ_eq f h sz w d (insKey kx (Sum.inr x) cs) y, hky]
                  dsimp only
                  rw [lookup_insKey_self, lookup_insKey_self]
                  dsimp only
                  rw [hp, hx0]
                  simp only [Bool.false_eq_true, if_false]
                  rw [insKey_insKey_self, insKey_insKey_self, heq]
              | some v =>
                cases v with
                | inl sub =>
                  have hmem := lookupKey_mem hl
                  have hwsub := hsub kx sub hmem
                  have hyeq : addFuel (f + 1) (.mk h sz w d cs) y =
                      (.mk h sz w d (insKey kx (.inl (addFuel f sub y).1) cs),
                        (addFuel f sub y).2) := by
                    rw [addFuel_succ_eq f h sz w d cs y, hky]
                    dsimp only
                    rw [hl]
                  rw [hyeq] at hy
                  dsimp only at hy
                  rw [hyeq] at hxy
                  dsimp only at hxy
                  rw [addFuel_succ_eq f h sz w d
                      (insKey kx (Sum.inl (addFuel f sub y).1) cs) x, hkx] at hxy
                  dsimp only at hxy
                  rw [lookup_insKey_self] at hxy
                  dsimp only at hxy
                  obtain ⟨hx0, heq⟩ := ih sub x y hwsub hy hxy
                  have hxeq : addFuel (f + 1) (.mk h sz w d cs) x =
                      (.mk h sz w d (insKey kx (.inl (addFuel f sub x).1) cs),
                        (addFuel f sub x).2) := by
                    rw [addFuel_succ_eq f h sz w d cs x, hkx]
                    dsimp only
                    rw [hl]
                  refine ⟨by rw [hxeq]; exact hx0, ?_⟩
                  rw [hyeq, hxeq]
                  dsimp only
                  rw [addFuel_succ_eq f h sz w d
                        (insKey kx (Sum.inl (addFuel f sub y).1) cs) x, hkx,
                      addFuel_succ_eq f h sz w d
                        (insKey kx (Sum.inl (addFuel f sub x).1) cs) y, hky]
                  dsimp only
                  rw [lookup_insKey_self, lookup_insKey_self]
                  dsimp only
                  rw [insKey_insKey_self, insKey_insKey_self, heq]
                | inr cur =>
                  rw [addFuel_succ_eq f h sz w d cs y, hky] at hy
                  dsimp only at hy
                  rw [hl] at hy
                  dsimp only at hy
                  cases hp : (addFuel f (.mk h sz w (d + 1) []) cur).2 with
                  | true => rw [hp] at hy; simp at hy
                  | false =>
                    simp only [hp, Bool.false_eq_true, if_false] at hy
                    have hyeq : addFuel (f + 1) (.mk h sz w d cs) y =
                        (.mk h sz w d (insKey kx (.inl (addFuel f
                            (addFuel f (.mk h sz w (d + 1) []) cur).1 y).1) cs),
                          (addFuel f (addFuel f (.mk h sz w (d + 1) []) cur).1 y).2) := by
                      rw [addFuel_succ_eq f h sz w d cs y, hky]
                      dsimp only
                      rw [hl]
                      dsimp only
                      rw [hp]
                      simp
                    rw [hyeq] at hxy
                    dsimp only at hxy
                    rw [addFuel_succ_eq f h sz w d
                        (insKey kx (Sum.inl (addFuel f
                          (addFuel f (.mk h sz w (d + 1) []) cur).1 y).1) cs) x, hkx] at hxy
                    dsimp only at hxy
                    rw [lookup_insKey_self] at hxy
                    dsimp only at hxy
                    have hwr1 : WF (addFuel f (.mk h sz w (d + 1) []) cur).1 :=
                      addFuel_WF f _ cur (WF_nil hsz)
                    obtain ⟨hx0, heq⟩ :=
                      ih (addFuel f (.mk h sz w (d + 1) []) cur).1 x y hwr1 hy hxy
                    have hxeq : addFuel (f + 1) (.mk h sz w d cs) x =
                        (.mk h sz w d (insKey kx (.inl (addFuel f
                            (addFuel f (.mk h sz w (d + 1) []) cur).1 x).1) cs),
                          (addFuel f (addFuel f (.mk h sz w (d + 1) []) cur).1 x).2) := by
                      rw [addFuel_succ_eq f h sz w d cs x, hkx]
                      dsimp only
                      rw [hl]
                      dsimp only
                      rw [hp]
                      simp
                    refine ⟨by rw [hxeq]; exact hx0, ?_⟩
                    rw [hyeq, hxeq]
                    dsimp only
                    rw [addFuel_succ_eq f h sz w d
                          (insKey kx (Sum.inl (addFuel f
                            (addFuel f (.mk h sz w (d + 1) []) cur).1 y).1) cs) x, hkx,
                        addFuel_succ_eq f h sz w d
                          (insKey kx (Sum.inl (addFuel f
                            (addFuel f (.mk h sz w (d + 1) []) cur).1 x).1) cs) y, hky]
                    dsimp only
                    rw [lookup_insKey_self, lookup_insKey_self]
                    dsimp only
                    rw [insKey_insKey_self, insKey_insKey_self, heq]
            · obtain ⟨vy, hvy⟩ := addFuel_step f h sz w d cs y ky hky hy
              have hyeq := hvy cs rfl
              rw [hyeq] at hxy
              dsimp only at hxy
              obtain ⟨vx, hvx⟩ := addFuel_step f h sz w d (insKey ky vy cs) x kx hkx hxy
              have hx1 := hvx (insKey ky vy cs) rfl
              have hx2 := hvx cs (lookup_insKey_ne hkk cs).symm
              have hyeq2 := hvy (insKey kx vx cs) (lookup_insKey_ne (Ne.symm hkk) cs)
              refine ⟨by rw [hx2], ?_⟩
              rw [hyeq, hx2]
              dsimp only
              rw [hx1, hyeq2, insKey_comm hkk]

/-- The commutation of addFuel transfers to shard.add, whose fuel depends
on the link being inserted, through fuel congruence at a common fuel. -/
theorem add_comm_shard (s : Shard) (x y : HamtLink) (hwf : WF s)
    (hy : (Shard.add s y).2 = false)
    (hxy : (Shard.add (Shard.add s y).1 x).2 = false) :
    (Shard.add s x).2 = false ∧
    Shard.add (Shard.add s y).1 x = Shard.add (Shard.add s x).1 y := by
  obtain ⟨F, hFx, hFy'⟩ : ∃ F, x.hashBits.length + 2 ≤ F ∧ y.hashBits.length + 2 ≤ F :=
    ⟨max (x.hashBits.length + 2) (y.hashBits.length + 2),
      Nat.le_max_left _ _, Nat.le_max_right _ _⟩
  have ey : Shard.add s y = addFuel F s y :=
    addFuel_congr (y.hashBits.length + 2) F s y hwf (by omega) (by omega)
  have ex : Shard.add s x = addFuel F s x :=
    addFuel_congr (x.hashBits.length + 2) F s x hwf (by omega) (by omega)
  have hwfy : WF (addFuel F s y).1 := addFuel_WF F s y hwf
  have hwfx : WF (addFuel F s x).1 := addFuel_WF F s x hwf
  have exy : Shard.add (Shard.add s y).1 x = addFuel F (addFuel F s y).1 x := by
    rw [ey]
    exact addFuel_congr (x.hashBits.length + 2) F _ x hwfy (by omega) (by omega)
  have eyx : Shard.add (Shard.add s x).1 y = addFuel F (addFuel F s x).1 y := by
    rw [ex]
    exact addFuel_congr (y.hashBits.length + 2) F _ y hwfx (by omega) (by omega)
  have hy' : (addFuel F s y).2 = false := by rw [← ey]; exact hy
  have hxy' : (addFuel F (addFuel F s y).1 x).2 = false := by rw [← exy]; exact hxy
  obtain ⟨hx0, heq⟩ := addFuel_comm F s x y hwf hy' hxy'
  refine ⟨?_, ?_⟩
  · rw [ex]; exact hx0
  · rw [exy, eyx]; exact heq

/-- The insertion loop is invariant under permutation of the entry list
whenever the run over the first order reports no error. -/
theorem addAll_perm : ∀ {es es' : List HamtLink}, es.Perm es' →
    ∀ s, WF s → (addAll s es).2 = false → addAll s es = addAll s es' := by
  intro es es' hp
  induction hp with
  | nil => intro s _ _; rfl
  | cons a h ih =>
    intro s hwf hflag
    simp only [addAll] at hflag ⊢
    rw [Bool.or_eq_false_iff] at hflag
    obtain ⟨h1, h2⟩ := hflag
    have hwf1 : WF (Shard.add s a).1 := addFuel_WF _ s a hwf
    rw [ih (Shard.add s a).1 hwf1 h2]
  | swap a b l =>
    intro s hwf hflag
    simp only [addAll] at hflag ⊢
    rw [Bool.or_eq_false_iff] at hflag
    obtain ⟨h1, h23⟩ := hflag
    rw [Bool.or_eq_false_iff] at h23
    obtain ⟨h2, h3⟩ := h23
    obtain ⟨ha0, heq⟩ := add_comm_shard s a b hwf h1 h2
    rw [heq, h1, ha0]
  | trans hp1 hp2 ih1 ih2 =>
    intro s hwf hflag
    have e1 := ih1 s hwf hflag
    rw [e1] at hflag
    rw [e1, ih2 s hwf hflag]

/-- C3 (amended): whenever the insertion loop reports no error — the flag
the source discards is false for the given order — the sharded directory
build returns the same root link and the same block list for every
permutation of its entry list. The unconditional claim is refuted by the
counterexample theorem: when an insertion errors, the error is dropped and
the output depends on the order. -/
theorem hamt_order_independence_amended
    (size hasher : Nat) (emptyDigest : Bytes) (entries entries' : List PBLink)
    (hperm : entries.Perm entries') (hsz : 1 ≤ size)
    (hok : (addAll (rootShard size hasher) (mkHamtEntries emptyDigest entries)).2 = false) :
    BuildUnixFSShardedDirectory size hasher emptyDigest entries =
      BuildUnixFSShardedDirectory size hasher emptyDigest entries' := by
  have hperm' : (mkHamtEntries emptyDigest entries).Perm
      (mkHamtEntries emptyDigest entries') := hperm.map _
  have hwf : WF (rootShard size hasher) := WF_nil hsz
  have hadd := addAll_perm hperm' (rootShard size hasher) hwf hok
  have hsum : ((mkHamtEntries emptyDigest entries).map (·.hashBits.length)).sum =
      ((mkHamtEntries emptyDigest entries').map (·.hashBits.length)).sum :=
    (hperm'.map _).sum_eq
  simp only [BuildUnixFSShardedDirectory]
  rw [hadd, hsum]

/-- First witness entry for the amended claim: name 0x00, landing in root
bucket 0. -/
def e1W : PBLink := ⟨⟨85, [0]⟩, [0], 1⟩

/-- Second witness entry for the amended claim: name 0x00 0x01, landing in
root bucket 1, so the two insertions are error-free in both orders. -/
def e2W : PBLink := ⟨⟨85, [0, 1]⟩, [0, 1], 1⟩

theorem hamt_order_independence_amended_witness :
    BuildUnixFSShardedDirectory 16 0x22 murmurEmpty [e1W, e2W] =
      BuildUnixFSShardedDirectory 16 0x22 murmurEmpty [e2W, e1W] :=
  hamt_order_independence_amended 16 0x22 murmurEmpty [e1W, e2W] [e2W, e1W]
    (List.Perm.swap e2W e1W []) (by decide) (by decide)

/-! ## The plain directory and recursive tree builders (translated from the
source file holding BuildUnixFSRecursive and its BuildUnixFSDirectory) -/

/-- Modelled from the spec (section 4.2): the Directory metadata record
carries only the data type. -/
def dirMeta : UnixMeta := ⟨Data_Directory, none, none, [], none, none⟩

/-- Translation of BuildUnixFSDirectory (the variant beside
BuildUnixFSRecursive): refuse more than DefaultLinksPerBlock entries,
otherwise wrap the entries in a dag-pb node whose Data is a Directory
record, store it and return its link; the name sort happens in the encoder,
as the source comments. -/
def BuildUnixFSDirectory (entries : List PBLink) (st : List Node) :
    Except String (Link × List Node) :=
  if entries.length > DefaultLinksPerBlock then
    .error "this builder does support sharded directories"
  else
    let node := Node.pb dirMeta entries
    .ok (mkLink node, st ++ [node])

/-- A filesystem tree: a file carries the chunks its byte stream splits
into (the chunker being external), a directory carries its named children
in listing order. -/
inductive FSEntry where
  | file : List Bytes → FSEntry
  | dir : List (Bytes × FSEntry) → FSEntry

/-- The child loop of BuildUnixFSRecursive: every child is built through
the go closure and an entry link carrying its name and reported size is
collected, in order. -/
def buildRecEntries (go : FSEntry → List Node → Except String (Link × Nat × List Node)) :
    List (Bytes × FSEntry) → List Node → Except String (List PBLink × List Node)
  | [], st => .ok ([], st)
  | (name, fse) :: rest, st =>
    match go fse st with
    | .error e => .error e
    | .ok (l, sz, st') =>
      match buildRecEntries go rest st' with
      | .error e => .error e
      | .ok (ls, st'') => .ok (⟨l, name, sz⟩ :: ls, st'')

/-- Worker for BuildUnixFSRecursive with structural fuel over the tree
depth: a file goes through BuildUnixFSFile; a directory builds its children
recursively, wraps the entry links with BuildUnixFSDirectory and returns
the directory link WITH STORED SIZE 0, exactly as the source line
`return outLnk, 0, err` does. -/
def buildRecFuel : Nat → FSEntry → List Node → Except String (Link × Nat × List Node)
  | 0, _, _ => .error "tree too deep"
  | _ + 1, .file chunks, st => buildFileFrom chunks st
  | f + 1, .dir children, st =>
    match buildRecEntries (buildRecFuel f) children st with
    | .error e => .error e
    | .ok (lnks, st') =>
      match BuildUnixFSDirectory lnks st' with
      | .error e => .error e
      | .ok (dl, st'') => .ok (dl, 0, st'')

/-- Translation of BuildUnixFSRecursive over an in-memory tree; the fuel
must exceed the tree depth (the Go source recurses without bound). -/
def BuildUnixFSRecursive (fuel : Nat) (root : FSEntry) :
    Except String (Link × Nat × List Node) :=
  buildRecFuel fuel root []

/-- A directory holding one file named 0x61 with the single byte 0x68. -/
def demoTree : FSEntry := .dir [([97], .file [[104]])]

/-- C9: building a directory tree returns the root link together with
stored size 0, although the build wrote two blocks (the raw leaf and the
directory node) of positive total length; the claim's total-byte identity
fails for directory roots. -/
theorem recursive_dir_size_zero :
    (BuildUnixFSRecursive 2 demoTree).map (fun r => r.2.1) = .ok 0 ∧
    (BuildUnixFSRecursive 2 demoTree).map (fun r => (r.2.2.map storedLen).sum) ≠ .ok 0 ∧
    (BuildUnixFSRecursive 2 demoTree).isOk = true := by
  refine ⟨by decide, by decide, by decide⟩

end UnixFS
